import Mathlib

/-!
Verification of the `image-pipeline` Rust crate (wignn/image-prosesing).

The engine operates on tightly packed RGBA byte buffers (`image::RgbaImage`,
called `PixelBuffer` in the specification).  We embed the filter functions of
`src/rust-core/image-pipeline/src/filters.rs` and the pipeline of
`src/rust-core/image-pipeline/src/lib.rs` shallowly:

* bytes (`u8`) are `ℕ` kept below 256 by the buffer invariant;
* `i32`/`u32` arithmetic is `ℤ`/`ℕ` with explicit saturation/clamping where
  the source casts (`as u8`, `as i32`) saturate;
* `f32` arithmetic of the tonal per-pixel filters is modelled bit-precisely:
  a rational carries the exact value of the float, and every `f32` operation
  rounds its exact rational result back to 24 significand bits
  (round-to-nearest, ties to even) via `roundF32`, exactly as IEEE-754
  binary32 does for the normal/subnormal range used here (no overflow to
  infinity and no NaN arises in the modelled computations, except for
  `blur` at `sigma = 0`, documented at `create_gaussian_kernel`);
* `exp` of `f32` (used only by the Gaussian kernel synthesizer) has no
  bit-precise specification, so the synthesizer is parameterized by an
  abstract weight function `E : ℚ → ℚ` standing for `f32::exp`; the
  synthesizer's own arithmetic (sum accumulation, normalization) is
  bit-precise `f32`;
* fallible/panicking paths (`u32` subtraction underflow in `edge_detect`,
  the negative/overflowing kernel size and the zero-width
  `par_chunks_mut(0)` panic in `blur`) are modelled with `Option`.
-/

/-! ## IEEE-754 binary32 rounding over ℚ -/

/- The Batteries rational operations are `@[irreducible]`, which blocks the
kernel evaluation used by `decide` on the concrete buffers below; restore
their reducibility for this file. -/
attribute [local semireducible] Rat.mul Rat.inv Rat.add Rat.sub Rat.ofScientific

/-- Round-half-to-even of a rational to an integer (IEEE default rounding of
a scaled significand). -/
def rhe (x : ℚ) : ℤ :=
  if x - ⌊x⌋ < 1/2 then ⌊x⌋
  else if 1/2 < x - ⌊x⌋ then ⌊x⌋ + 1
  else if ⌊x⌋ % 2 = 0 then ⌊x⌋ else ⌊x⌋ + 1

/-- The walk `qexpAux fuel a e` moves `a` into the interval `[1, 2)` by doubling or
halving, tracking the binary exponent in `e`.  The structural fuel makes the
recursion kernel-reducible; `qexp` supplies fuel exceeding
`|⌊log₂ a⌋| + 1 ≤ (bits of numerator) + (bits of denominator) + 1`, so the
walk always terminates in range. -/
def qexpAux : ℕ → ℚ → ℤ → ℤ
  | 0, _, e => e
  | fuel + 1, a, e =>
    if a < 1 then qexpAux fuel (2 * a) (e - 1)
    else if 2 ≤ a then qexpAux fuel (a / 2) (e + 1)
    else e

/-- Computes `⌊log₂ a⌋` for positive rationals: the unique `e` with `2^e ≤ a < 2^(e+1)`. -/
def qexp (a : ℚ) : ℤ := qexpAux (a.num.natAbs + a.den + 1) a 0

/-- Round a rational to the nearest `f32` value (round-to-nearest, ties to
even, 24-bit significand, subnormals flushed to multiples of `2^(-149)`).
Overflow beyond the finite `f32` range does not occur in any computation
modelled in this file, so it is not treated. -/
def roundF32 (q : ℚ) : ℚ :=
  if q = 0 then 0
  else
    (if q < 0 then (-1 : ℚ) else 1) *
      (rhe (|q| * (2:ℚ) ^ (23 - max (qexp |q|) (-126))) : ℚ) *
      (2:ℚ) ^ (max (qexp |q|) (-126) - 23)

/-- Models `f32` multiplication: exact product, rounded. -/
def fmul (x y : ℚ) : ℚ := roundF32 (x * y)

/-- Models `f32` addition: exact sum, rounded. -/
def fadd (x y : ℚ) : ℚ := roundF32 (x + y)

/-- Models `f32` subtraction: exact difference, rounded. -/
def fsub (x y : ℚ) : ℚ := roundF32 (x - y)

/-- Models `f32` division: exact quotient, rounded (division by zero, which is NaN
or infinity in `f32`, is mapped to `0` by `ℚ`; see `create_gaussian_kernel`
for the one place this matters). -/
def fdiv (x y : ℚ) : ℚ := roundF32 (x / y)

/-- Truncation toward zero, the rounding used by Rust numeric casts from
floats. -/
def ratTrunc (q : ℚ) : ℤ := if 0 ≤ q then ⌊q⌋ else ⌈q⌉

/-- Rust's saturating float-to-`u8` cast `as u8`: truncate toward zero and
clamp into `[0, 255]`. -/
def asU8 (q : ℚ) : ℕ := (min 255 (max 0 (ratTrunc q))).toNat

/-- Rust's saturating float-to-`i32` cast `as i32`. -/
def asI32 (q : ℚ) : ℤ := min (2 ^ 31 - 1) (max (-(2 ^ 31)) (ratTrunc q))

/-- Models `f32::clamp` with rational endpoints (no NaN arises here). -/
def clampQ (lo hi q : ℚ) : ℚ := max lo (min hi q)

/-- The unit roundoff of binary32: `roundF32` perturbs a normal-range value
by a relative factor of at most `2^(-24)` (`roundF32_bounds`). -/
def epsF32 : ℚ := 1 / 2 ^ 24

/-! ## The pixel buffer data model -/

/-- The `PixelBuffer` of specification §3: the raw content of an
`image::RgbaImage` — width, height and the packed R,G,B,A byte sequence. -/
structure PixelBuffer where
  width : ℕ
  height : ℕ
  pixels : List ℕ
  deriving DecidableEq, Repr

/-- The `PixelBuffer` invariant (spec §3): the byte sequence has exactly
`width*height*4` entries and every entry is a byte.  `RgbaImage` guarantees
both by construction. -/
def PixelBuffer.Valid (b : PixelBuffer) : Prop :=
  b.pixels.length = b.width * b.height * 4 ∧ ∀ c ∈ b.pixels, c ≤ 255

instance (b : PixelBuffer) : Decidable b.Valid := by
  unfold PixelBuffer.Valid; infer_instance

/-- Byte `k` of the buffer (out-of-range reads, which `RgbaImage` precludes,
default to 0). -/
def PixelBuffer.byteAt (b : PixelBuffer) (k : ℕ) : ℕ := b.pixels.getD k 0

/-- The `i`-th RGBA quadruple of the packed byte sequence. -/
def pixelAt (b : PixelBuffer) (i : ℕ) : ℕ × ℕ × ℕ × ℕ :=
  (b.byteAt (4 * i), b.byteAt (4 * i + 1), b.byteAt (4 * i + 2), b.byteAt (4 * i + 3))

/-- The RGBA quadruple at column `x`, row `y` (row-major, as in the crate). -/
def pixelAtXY (b : PixelBuffer) (x y : ℕ) : ℕ × ℕ × ℕ × ℕ :=
  pixelAt b (y * b.width + x)

/-- Number of complete 4-byte pixels in the buffer. -/
def numPixels (b : PixelBuffer) : ℕ := b.pixels.length / 4

/-! ## `par_chunks(4).flat_map` -/

/-- The per-pixel iteration shared by the tonal filters: Rust's
`as_raw().par_chunks(4).flat_map(|pixel| ...)`.  The parallel iterator is
order-preserving, so it is a plain chunked map.  (A trailing incomplete
chunk would make the source's `pixel[3]` panic; it cannot arise under the
buffer invariant and is dropped here.) -/
def mapChunks (f : ℕ → ℕ → ℕ → ℕ → List ℕ) : List ℕ → List ℕ
  | r :: g :: b :: a :: rest => f r g b a ++ mapChunks f rest
  | _ => []

/-! ## Tonal per-pixel filters (`filters.rs`) -/

/-- The `f32` value of the literal `0.2126`. -/
def c2126 : ℚ := roundF32 (2126 / 10000)

/-- The `f32` value of the literal `0.7152`. -/
def c7152 : ℚ := roundF32 (7152 / 10000)

/-- The `f32` value of the literal `0.0722`. -/
def c0722 : ℚ := roundF32 (722 / 10000)

/-- The luma computed by `grayscale`:
`0.2126 * r + 0.7152 * g + 0.0722 * b` in `f32` arithmetic
(left-associated, as in the source). -/
def lumaF32 (r g b : ℕ) : ℚ :=
  fadd (fadd (fmul c2126 (r : ℚ)) (fmul c7152 (g : ℚ))) (fmul c0722 (b : ℚ))

/-- Source `filters::grayscale` (filters.rs:6-21): per 4-byte chunk, the BT.709
luma is computed in `f32` and cast with `as u8` (truncation toward zero);
output is `[gray, gray, gray, pixel[3]]`. -/
def grayscale (image : PixelBuffer) : PixelBuffer :=
  { width := image.width
    height := image.height
    pixels := mapChunks
      (fun r g b a => [asU8 (lumaF32 r g b), asU8 (lumaF32 r g b), asU8 (lumaF32 r g b), a])
      image.pixels }

/-- Source `filters::brightness` (filters.rs:25-43): `adjustment = (value * 255.0) as i32`
(f32 product truncated toward zero), then per channel
`(channel as i32 + adjustment).clamp(0, 255) as u8`; alpha copied.
The `i32` addition `channel + adjustment` cannot overflow on the negative
side; the positive-side overflow (only for `value ≥ 2^31/255`, a debug
panic in Rust) is not modelled. -/
def brightness (image : PixelBuffer) (value : ℚ) : PixelBuffer :=
  let adjustment : ℤ := asI32 (fmul value 255)
  { width := image.width
    height := image.height
    pixels := mapChunks
      (fun r g b a =>
        [(min 255 (max 0 ((r : ℤ) + adjustment))).toNat,
         (min 255 (max 0 ((g : ℤ) + adjustment))).toNat,
         (min 255 (max 0 ((b : ℤ) + adjustment))).toNat,
         a])
      image.pixels }

/-- Source `filters::contrast` (filters.rs:47-65): per channel
`(((channel - 128.0) * factor) + 128.0).clamp(0.0, 255.0) as u8` in `f32`;
alpha copied. -/
def contrast (image : PixelBuffer) (value : ℚ) : PixelBuffer :=
  { width := image.width
    height := image.height
    pixels := mapChunks
      (fun r g b a =>
        [asU8 (clampQ 0 255 (fadd (fmul (fsub (r : ℚ) 128) value) 128)),
         asU8 (clampQ 0 255 (fadd (fmul (fsub (g : ℚ) 128) value) 128)),
         asU8 (clampQ 0 255 (fadd (fmul (fsub (b : ℚ) 128) value) 128)),
         a])
      image.pixels }

/-- Source `filters::invert` (filters.rs:264-274): `[255 - r, 255 - g, 255 - b, a]`
per chunk, in `u8` arithmetic (no underflow since bytes are ≤ 255). -/
def invert (image : PixelBuffer) : PixelBuffer :=
  { width := image.width
    height := image.height
    pixels := mapChunks (fun r g b a => [255 - r, 255 - g, 255 - b, a]) image.pixels }

/-- The `f32` values of the sepia matrix literals. -/
def c393 : ℚ := roundF32 (393 / 1000)
def c769 : ℚ := roundF32 (769 / 1000)
def c189 : ℚ := roundF32 (189 / 1000)
def c349 : ℚ := roundF32 (349 / 1000)
def c686 : ℚ := roundF32 (686 / 1000)
def c168 : ℚ := roundF32 (168 / 1000)
def c272 : ℚ := roundF32 (272 / 1000)
def c534 : ℚ := roundF32 (534 / 1000)
def c131 : ℚ := roundF32 (131 / 1000)

/-- Source `filters::sepia` (filters.rs:277-297): the fixed sepia matrix applied in
`f32`, clamped to `[0, 255]`, truncated with `as u8`; alpha copied. -/
def sepia (image : PixelBuffer) : PixelBuffer :=
  { width := image.width
    height := image.height
    pixels := mapChunks
      (fun r g b a =>
        [asU8 (clampQ 0 255 (fadd (fadd (fmul c393 (r : ℚ)) (fmul c769 (g : ℚ))) (fmul c189 (b : ℚ)))),
         asU8 (clampQ 0 255 (fadd (fadd (fmul c349 (r : ℚ)) (fmul c686 (g : ℚ))) (fmul c168 (b : ℚ)))),
         asU8 (clampQ 0 255 (fadd (fadd (fmul c272 (r : ℚ)) (fmul c534 (g : ℚ))) (fmul c131 (b : ℚ)))),
         a])
      image.pixels }


/-! ## Kernel synthesizer and separable Gaussian blur (`filters.rs`) -/

/-- Source `filters::create_gaussian_kernel` (filters.rs:80-98), parameterized by
the abstract `f32::exp` model `E`.  `size = radius * 2 + 1`; the argument of
`exp` is computed as in the source, `-x * x / sigma2` with
`sigma2 = 2.0 * sigma * sigma`, in rounded `f32` arithmetic (the cast
`(i - radius) as f32`, exact for every kernel the program can allocate up to
`2^24`, is idealized as exact).  For `sigma = 0` the source computes
`0.0/0.0 = NaN` here, while `ℚ` yields `0`, so the *content* (never the
success) of `blur` at `sigma = 0` is not faithful.  `gaussWeights` is the
loop filling `kernel[i]` before normalization. -/
def gaussWeights (E : ℚ → ℚ) (radius : ℕ) (sigma : ℚ) : List ℚ :=
  (List.range (radius * 2 + 1)).map (fun (i : ℕ) =>
    E (fdiv (fmul (-(((i : ℤ) - (radius : ℤ) : ℤ) : ℚ)) (((i : ℤ) - (radius : ℤ) : ℤ) : ℚ))
        (fmul (fmul 2 sigma) sigma)))

/-- The accumulation `let mut sum = 0.0; … sum += kernel[i]` of
`create_gaussian_kernel`: an `f32` left fold of the weights starting at
`0.0`. -/
def gaussKernelSum (E : ℚ → ℚ) (radius : ℕ) (sigma : ℚ) : ℚ :=
  (gaussWeights E radius sigma).foldl fadd 0

/-- The normalization loop `for k in &mut kernel { *k /= sum }` of
`create_gaussian_kernel`: each weight is divided by the accumulated sum in
`f32`. -/
def create_gaussian_kernel (E : ℚ → ℚ) (radius : ℕ) (sigma : ℚ) : List ℚ :=
  (gaussWeights E radius sigma).map (fun k => fdiv k (gaussKernelSum E radius sigma))

/-- The four output bytes of one convolution pixel:
`clamp(0.0, 255.0) as u8` per accumulated channel. -/
def convBytes (acc : ℚ × ℚ × ℚ × ℚ) : List ℕ :=
  [asU8 (clampQ 0 255 acc.1), asU8 (clampQ 0 255 acc.2.1),
   asU8 (clampQ 0 255 acc.2.2.1), asU8 (clampQ 0 255 acc.2.2.2)]

/-- Source `filters::apply_convolution_1d_horizontal` (filters.rs:101-137):
per output pixel, fold the kernel over horizontally clamped samples
(`sample_x = (x + i - radius).clamp(0, width-1)`, edge replication), with
`f32` multiply-accumulate, then clamp to `[0,255]` and truncate to bytes.
`radius = kernel.len() / 2`. -/
def apply_convolution_1d_horizontal (image : PixelBuffer) (kernel : List ℚ) : PixelBuffer :=
  let w := image.width
  let h := image.height
  let radius : ℤ := (kernel.length / 2 : ℕ)
  { width := w
    height := h
    pixels := (List.range h).flatMap (fun y =>
      (List.range w).flatMap (fun x =>
        convBytes (kernel.enum.foldl
          (fun acc iw =>
            let sampleX : ℕ := (max 0 (min ((w : ℤ) - 1) ((x : ℤ) + (iw.1 : ℤ) - radius))).toNat
            let base := (y * w + sampleX) * 4
            (fadd acc.1 (fmul (image.byteAt base : ℚ) iw.2),
             fadd acc.2.1 (fmul (image.byteAt (base + 1) : ℚ) iw.2),
             fadd acc.2.2.1 (fmul (image.byteAt (base + 2) : ℚ) iw.2),
             fadd acc.2.2.2 (fmul (image.byteAt (base + 3) : ℚ) iw.2)))
          (0, 0, 0, 0)))) }

/-- Source `filters::apply_convolution_1d_vertical` (filters.rs:140-175): the same
fold with vertically clamped samples
(`sample_y = (y + i - radius).clamp(0, height-1)`). -/
def apply_convolution_1d_vertical (image : PixelBuffer) (kernel : List ℚ) : PixelBuffer :=
  let w := image.width
  let h := image.height
  let radius : ℤ := (kernel.length / 2 : ℕ)
  { width := w
    height := h
    pixels := (List.range h).flatMap (fun y =>
      (List.range w).flatMap (fun x =>
        convBytes (kernel.enum.foldl
          (fun acc iw =>
            let sampleY : ℕ := (max 0 (min ((h : ℤ) - 1) ((y : ℤ) + (iw.1 : ℤ) - radius))).toNat
            let base := (sampleY * w + x) * 4
            (fadd acc.1 (fmul (image.byteAt base : ℚ) iw.2),
             fadd acc.2.1 (fmul (image.byteAt (base + 1) : ℚ) iw.2),
             fadd acc.2.2.1 (fmul (image.byteAt (base + 2) : ℚ) iw.2),
             fadd acc.2.2.2 (fmul (image.byteAt (base + 3) : ℚ) iw.2)))
          (0, 0, 0, 0)))) }

/-- The two convolution passes of `blur` once the kernel exists. -/
def blurBody (E : ℚ → ℚ) (image : PixelBuffer) (sigma : ℚ) (radius : ℕ) : PixelBuffer :=
  let kernel := create_gaussian_kernel E radius sigma
  apply_convolution_1d_vertical (apply_convolution_1d_horizontal image kernel) kernel

/-- The bit-precise model of `blur`'s radius computation
`(sigma * 3.0).ceil() as i32` (filters.rs:70): the ceiling of the *rounded*
`f32` product.  The `ceil` of a finite `f32` is exact, and the saturating
`as i32` cast only matters beyond the `radius ≥ 2^30` guard in `blur`, where
the call panics either way.  This rounding is observable: at
`sigma = roundF32 (1/3)` (the `f32` nearest `1/3`) the exact product
`3·sigma = 1 + 2^(-25)` rounds down to exactly `1.0`, so the program's
radius is `1` while `⌈3·sigma⌉ = 2` — see `C5_gaussian_kernel_counterexample`. -/
def blurRadiusF32 (sigma : ℚ) : ℤ := ⌈fmul sigma 3⌉

/-- The radius `blur` itself uses in this embedding: the exact
`⌈sigma * 3⌉`, an idealization of `blurRadiusF32` (which see).  The two
agree at every `f32`-representable `sigma` in the ranges the theorems about
`blur` quantify over (in particular on `(-1/3, 0]`, where the `f32` product
of a representable sigma never reaches `-1`); they differ at rationals that
are not `f32` values (e.g. `(2^(-26) - 1)/3`, whose product rounds to `-1`)
— such rationals denote no program execution, but they are inside the
domain of the `blur` theorems, which quantify over all of `ℚ`.  Keeping the
exact ceiling here makes those theorems true as stated on all of `ℚ` while
remaining extensionally correct on the `f32` inputs the program can
receive; the radius *formula* itself is settled bit-precisely by
`blurRadiusF32` and the C5 theorems.  `none` in `blur` models the panics: a
negative `radius` makes `(radius * 2 + 1) as usize` wrap to an
unallocatable size (`sigma ≤ -1/3`), `radius ≥ 2^30` overflows the `i32`
`radius * 2 + 1` (the saturating `as i32` cast of huge `sigma` lands there
too), and `width = 0` makes the vertical pass call `par_chunks_mut(0)`,
which panics.  (`u32` arithmetic overflow on buffers of `2^32` bytes or
more is not modelled.) -/
def blurRadius (sigma : ℚ) : ℤ := ⌈sigma * 3⌉

/-- Source `filters::blur`, continued: the guarded body (see `blurRadius`). -/
def blur (E : ℚ → ℚ) (image : PixelBuffer) (sigma : ℚ) : Option PixelBuffer :=
  if blurRadius sigma < 0 ∨ 2 ^ 30 ≤ blurRadius sigma then none
  else if image.width = 0 then none
  else some (blurBody E image sigma (blurRadius sigma).toNat)

/-- The zipped-chunk iteration of `sharpen`:
`orig.par_chunks(4).zip(blurred.par_chunks(4)).flat_map`. -/
def mapChunks2 (f : ℕ → ℕ → ℕ → ℕ → ℕ → ℕ → ℕ → ℕ → List ℕ) :
    List ℕ → List ℕ → List ℕ
  | o1 :: o2 :: o3 :: o4 :: orest, b1 :: b2 :: b3 :: b4 :: brest =>
    f o1 o2 o3 o4 b1 b2 b3 b4 ++ mapChunks2 f orest brest
  | _, _ => []

/-- Source `filters::sharpen` (filters.rs:178-201): unsharp masking with fixed
`amount = 1.5` (exactly representable in `f32`):
`(orig + 1.5 * (orig - blurred)).clamp(0.0, 255.0) as u8` per color channel,
alpha copied from the original.  It first calls `blur(image, 1.0)`
(`radius = 3`), whose `width = 0` panic propagates. -/
def sharpen (E : ℚ → ℚ) (image : PixelBuffer) : Option PixelBuffer :=
  (blur E image 1).map (fun blurred =>
    { width := image.width
      height := image.height
      pixels := mapChunks2
        (fun o1 o2 o3 o4 b1 b2 b3 _b4 =>
          [asU8 (clampQ 0 255 (fadd (o1 : ℚ) (fmul (3/2) (fsub (o1 : ℚ) (b1 : ℚ))))),
           asU8 (clampQ 0 255 (fadd (o2 : ℚ) (fmul (3/2) (fsub (o2 : ℚ) (b2 : ℚ))))),
           asU8 (clampQ 0 255 (fadd (o3 : ℚ) (fmul (3/2) (fsub (o3 : ℚ) (b3 : ℚ))))),
           o4])
        image.pixels blurred.pixels })

/-! ## Sobel edge detection (`filters.rs`) -/

/-- The Sobel x-kernel of `edge_detect` (filters.rs:209). -/
def sobelX : List (List ℤ) := [[-1, 0, 1], [-2, 0, 2], [-1, 0, 1]]

/-- The Sobel y-kernel of `edge_detect` (filters.rs:210). -/
def sobelY : List (List ℤ) := [[-1, -2, -1], [0, 0, 0], [1, 2, 1]]

/-- Luma channel (channel 0) of a grayscale buffer at `(x, y)`:
`gray.get_pixel(x, y)[0]`. -/
def grayByteAt (gray : PixelBuffer) (x y : ℕ) : ℕ :=
  gray.byteAt ((y * gray.width + x) * 4)

/-- The horizontal Sobel response at `(x, y)`: the 3×3 accumulation
`gx += px * sobel_x[ky][kx]` over `px = gray.get_pixel(x+kx-1, y+ky-1)[0]`
(the `u32` index arithmetic `x + kx - 1` never underflows on the interior
points where this is used). -/
def sobelGX (gray : PixelBuffer) (x y : ℕ) : ℤ :=
  ((List.range 3).map (fun ky =>
    ((List.range 3).map (fun kx =>
      (grayByteAt gray (x + kx - 1) (y + ky - 1) : ℤ) * ((sobelX.getD ky []).getD kx 0))).sum)).sum

/-- The vertical Sobel response at `(x, y)`. -/
def sobelGY (gray : PixelBuffer) (x y : ℕ) : ℤ :=
  ((List.range 3).map (fun ky =>
    ((List.range 3).map (fun kx =>
      (grayByteAt gray (x + kx - 1) (y + ky - 1) : ℤ) * ((sobelY.getD ky []).getD kx 0))).sum)).sum

/-- The Sobel magnitude byte
`((gx*gx + gy*gy) as f32).sqrt().clamp(0.0, 255.0) as u8` (filters.rs:228).
Since `gx² + gy² ≤ 2 * 1020² < 2^24` the `i32 → f32` cast is exact, and the
correctly rounded `f32` square root of an integer `n < 2^21` lies strictly
between the consecutive integers surrounding `√n` (the rounding error,
below half an ulp `≤ 2^-13`, is smaller than the distance `≥ 1/(2·1443)`
from `√n` to the nearest integer unless `n` is a perfect square, where the
root is exact), so truncating the clamped root is exactly
`min 255 ⌊√n⌋`. -/
def sobelMagAt (gray : PixelBuffer) (x y : ℕ) : ℕ :=
  min 255 (Nat.sqrt ((sobelGX gray x y) ^ 2 + (sobelGY gray x y) ^ 2).toNat)

/-- Source `filters::edge_detect` (filters.rs:204-250): grayscale first, then the
Sobel operator over the interior `[1, width-2] × [1, height-2]`, written
into a zero-initialized (`ImageBuffer::new`) output, so the one-pixel
border stays `(0,0,0,0)`.  `none` models the `u32` subtraction panics:
`height - 1` in the row range underflows when `height = 0`, and
`(width - 2) * 4` in the per-row `Vec::with_capacity` underflows when
`width < 2` — the latter only executes when the row range `1..height-1` is
non-empty, i.e. `height ≥ 3`. -/
def edge_detect (image : PixelBuffer) : Option PixelBuffer :=
  if image.height = 0 then none
  else if 3 ≤ image.height ∧ image.width < 2 then none
  else some
    { width := image.width
      height := image.height
      pixels := (List.range image.height).flatMap (fun y =>
        (List.range image.width).flatMap (fun x =>
          if 1 ≤ x ∧ x + 1 < image.width ∧ 1 ≤ y ∧ y + 1 < image.height then
            [sobelMagAt (grayscale image) x y, sobelMagAt (grayscale image) x y,
             sobelMagAt (grayscale image) x y, 255]
          else [0, 0, 0, 0])) }

/-! ## Resize and the pipeline (`filters.rs`, `lib.rs`) -/

/-- Modelled from the spec: `filters::resize` (filters.rs:253-261) delegates
the pixel content entirely to `image::imageops::resize` with
`FilterType::Lanczos3`, an external crate outside this repository; spec §4.1
fixes only that the output dimensions are exactly `(new_width, new_height)`
(also when one of them is zero — the external loops just run zero times)
and that the result is a well-formed RGBA buffer.  A `Resampler` is any
content function satisfying that contract; the repository's own code never
inspects the content. -/
structure Resampler where
  sample : PixelBuffer → ℕ → ℕ → List ℕ
  sample_length : ∀ img w h, (sample img w h).length = w * h * 4
  sample_bounded : ∀ img w h, ∀ c ∈ sample img w h, c ≤ 255

/-- Source `filters::resize` (filters.rs:253-261): output dimensions are the
requested ones; no validation of any kind is performed. -/
def resize (R : Resampler) (image : PixelBuffer) (new_width new_height : ℕ) : PixelBuffer :=
  { width := new_width
    height := new_height
    pixels := R.sample image new_width new_height }

/-- Source `PipelineError` (error.rs:4-16).  The `String` payloads carry no
behaviour and are dropped.  Note there is no `InvalidDimensions` variant
anywhere in the crate. -/
inductive PipelineError where
  | ImageError
  | InvalidParameter
  | ProcessingError
  | IoError
  deriving DecidableEq, Repr

/-- Source `FilterOperation` (lib.rs:85-104). -/
inductive FilterOperation where
  | Grayscale
  | Brightness (value : ℚ)
  | Contrast (value : ℚ)
  | Blur (sigma : ℚ)
  | Sharpen
  | EdgeDetect
  | Resize (width height : ℕ)
  | Invert
  | Sepia

/-- One arm of the `match op` dispatch inside `ImagePipeline::process`
(lib.rs:42-54).  `none` is a filter panic (see `blur`, `edge_detect`). -/
def applyOp (E : ℚ → ℚ) (R : Resampler) (image : PixelBuffer) :
    FilterOperation → Option PixelBuffer
  | .Grayscale => some (grayscale image)
  | .Brightness value => some (brightness image value)
  | .Contrast value => some (contrast image value)
  | .Blur sigma => blur E image sigma
  | .Sharpen => sharpen E image
  | .EdgeDetect => edge_detect image
  | .Resize w h => some (resize R image w h)
  | .Invert => some (invert image)
  | .Sepia => some (sepia image)

/-- The sequential fold of `ImagePipeline::process` (lib.rs:38-58): thread
the buffer through the operations in order. -/
def runOps (E : ℚ → ℚ) (R : Resampler) :
    PixelBuffer → List FilterOperation → Option PixelBuffer
  | image, [] => some image
  | image, op :: rest => (applyOp E R image op).bind (fun b => runOps E R b rest)

/-- Source `ImagePipeline::process` (lib.rs:38-58): clone the input, fold the
operations, and wrap the final buffer in `Ok`.  No code path of `process`
constructs an error value — the `Result` is vestigial; `none` models a
filter panic, after which nothing is returned at all. -/
def process (E : ℚ → ℚ) (R : Resampler) (image : PixelBuffer)
    (operations : List FilterOperation) : Option (Except PipelineError PixelBuffer) :=
  (runOps E R image operations).map Except.ok

/-- A concrete stand-in for `f32::exp` used by witnesses: constantly 1. -/
def constOne : ℚ → ℚ := fun _ => 1

/-- A concrete `Resampler` for witnesses: all-zero output of the target
size. -/
def zeroResampler : Resampler where
  sample := fun _ w h => List.replicate (w * h * 4) 0
  sample_length := by intro img w h; simp
  sample_bounded := by
    intro img w h c hc
    rw [List.eq_of_mem_replicate hc]
    omega

/-- Decidable equality of pipeline results, for concrete evaluation. -/
instance : DecidableEq (Except PipelineError PixelBuffer) := fun x y =>
  match x, y with
  | .error a, .error b =>
    if h : a = b then .isTrue (by rw [h]) else .isFalse (by intro hh; cases hh; exact h rfl)
  | .error _, .ok _ => .isFalse (by intro h; cases h)
  | .ok _, .error _ => .isFalse (by intro h; cases h)
  | .ok a, .ok b =>
    if h : a = b then .isTrue (by rw [h]) else .isFalse (by intro hh; cases hh; exact h rfl)

/-! ## Concrete buffers for witnesses and counterexamples -/

/-- A valid 1×1 buffer. -/
def bufOnePixel : PixelBuffer := ⟨1, 1, [10, 20, 30, 40]⟩

/-- A valid 1×1 buffer whose luma lands just below an integer in `f32`. -/
def bufGray13 : PixelBuffer := ⟨1, 1, [13, 13, 13, 200]⟩

/-- A valid 1×1 black buffer with a marked alpha. -/
def bufDark : PixelBuffer := ⟨1, 1, [0, 0, 0, 9]⟩

/-- A valid 2×2 zero buffer (all border for `edge_detect`). -/
def bufTwoByTwo : PixelBuffer := ⟨2, 2, List.replicate 16 0⟩

/-- The valid 0×0 buffer. -/
def bufEmpty : PixelBuffer := ⟨0, 0, []⟩

/-- The luma formula exactly as the specification words it, in exact (real)
arithmetic: `0.2126*R + 0.7152*G + 0.0722*B`.  Used only to compare the
spec's claim against the code's `f32` truncation. -/
def specLuma (r g b : ℕ) : ℚ :=
  (2126 / 10000) * (r : ℚ) + (7152 / 10000) * (g : ℚ) + (722 / 10000) * (b : ℚ)


/-! ## Basic bounds -/

theorem asU8_le (q : ℚ) : asU8 q ≤ 255 := by
  have h : min 255 (max 0 (ratTrunc q)) ≤ (255 : ℤ) := min_le_left _ _
  unfold asU8
  omega

/-! ## Structural lemmas for the generated pixel lists -/

theorem mapChunks_length (f : ℕ → ℕ → ℕ → ℕ → List ℕ)
    (hf : ∀ r g b a, (f r g b a).length = 4) :
    ∀ l : List ℕ, l.length % 4 = 0 → (mapChunks f l).length = l.length
  | [], _ => rfl
  | [_], h => by simp at h
  | [_, _], h => by simp at h
  | [_, _, _], h => by simp at h
  | r :: g :: b :: a :: rest, h => by
    have hr : rest.length % 4 = 0 := by
      simp only [List.length_cons] at h
      omega
    have ih := mapChunks_length f hf rest hr
    simp [mapChunks, hf, ih]
    omega

theorem mapChunks_bounded (f : ℕ → ℕ → ℕ → ℕ → List ℕ)
    (hf : ∀ r g b a, r ≤ 255 → g ≤ 255 → b ≤ 255 → a ≤ 255 →
      ∀ x ∈ f r g b a, x ≤ 255) :
    ∀ l : List ℕ, (∀ c ∈ l, c ≤ 255) → ∀ x ∈ mapChunks f l, x ≤ 255
  | [], _ => by simp [mapChunks]
  | [_], h => by simp [mapChunks]
  | [_, _], h => by simp [mapChunks]
  | [_, _, _], h => by simp [mapChunks]
  | r :: g :: b :: a :: rest, h => by
    intro x hx
    have hb := h
    simp only [List.mem_cons] at hb
    rw [mapChunks, List.mem_append] at hx
    rcases hx with hx | hx
    · exact hf r g b a (hb r (by tauto)) (hb g (by tauto)) (hb b (by tauto))
        (hb a (by tauto)) x hx
    · exact mapChunks_bounded f hf rest (fun c hc => hb c (by tauto)) x hx

theorem getD_cons4 (r g b a : ℕ) (rest : List ℕ) (k : ℕ) :
    (r :: g :: b :: a :: rest).getD (k + 4) 0 = rest.getD k 0 := by
  show (r :: g :: b :: a :: rest).getD (k + 1 + 1 + 1 + 1) 0 = rest.getD k 0
  simp [List.getD_cons_succ]

theorem mapChunks_getD (f : ℕ → ℕ → ℕ → ℕ → List ℕ)
    (hf : ∀ r g b a, (f r g b a).length = 4) :
    ∀ (i : ℕ) (l : List ℕ) (c : ℕ), c < 4 → 4 * (i + 1) ≤ l.length →
      (mapChunks f l).getD (4 * i + c) 0 =
        (f (l.getD (4 * i) 0) (l.getD (4 * i + 1) 0)
           (l.getD (4 * i + 2) 0) (l.getD (4 * i + 3) 0)).getD c 0 := by
  intro i
  induction i with
  | zero =>
    intro l c hc hl
    match l, hl with
    | r :: g :: b :: a :: rest, _ =>
      rw [mapChunks]
      simp only [Nat.mul_zero, Nat.zero_add]
      rw [List.getD_append _ _ _ _ (by rw [hf]; omega)]
      rfl
  | succ n ih =>
    intro l c hc hl
    match l, hl with
    | r :: g :: b :: a :: rest, hl2 =>
      rw [mapChunks]
      have hstep : ∀ j : ℕ, 4 * (n + 1) + j = 4 * n + j + 4 := fun j => by omega
      simp only [hstep]
      rw [show 4 * (n + 1) = 4 * n + 4 from by omega]
      rw [List.getD_append_right _ _ _ _ (by rw [hf]; omega), hf]
      rw [show 4 * n + c + 4 - 4 = 4 * n + c from by omega]
      rw [getD_cons4, getD_cons4, getD_cons4, getD_cons4]
      have hlen : 4 * (n + 1) ≤ rest.length := by
        have := hl2
        simp only [List.length_cons] at this
        omega
      exact ih rest c hc hlen


theorem length_flatMap_const {α : Type} (g : α → List ℕ) (c : ℕ) :
    ∀ l : List α, (∀ a ∈ l, (g a).length = c) → (l.flatMap g).length = l.length * c := by
  intro l
  induction l with
  | nil => intro _; simp
  | cons a t ih =>
    intro hg
    simp only [List.flatMap_cons, List.length_append, List.length_cons]
    rw [hg a (List.mem_cons_self a t), ih (fun b hb => hg b (List.mem_cons_of_mem a hb))]
    ring

theorem flatMap_getD (g : ℕ → List ℕ) (c : ℕ) :
    ∀ (l : List ℕ) (i j : ℕ), (∀ a ∈ l, (g a).length = c) → i < l.length → j < c →
      (l.flatMap g).getD (i * c + j) 0 = (g (l.getD i 0)).getD j 0 := by
  intro l
  induction l with
  | nil => intro i j _ hi _; simp at hi
  | cons a t ih =>
    intro i j hg hi hj
    cases i with
    | zero =>
      simp only [List.flatMap_cons, Nat.zero_mul, Nat.zero_add]
      rw [List.getD_append _ _ _ _ (by rw [hg a (List.mem_cons_self a t)]; omega)]
      rfl
    | succ n =>
      simp only [List.flatMap_cons]
      rw [show (n + 1) * c + j = c + (n * c + j) from by ring]
      rw [List.getD_append_right _ _ _ _ (by rw [hg a (List.mem_cons_self a t)]; omega)]
      rw [hg a (List.mem_cons_self a t)]
      rw [show c + (n * c + j) - c = n * c + j from by omega]
      have hi' : n < t.length := by simp at hi; omega
      rw [ih n j (fun b hb => hg b (List.mem_cons_of_mem a hb)) hi' hj]
      rfl

theorem mem_flatMap_range {g : ℕ → List ℕ} {n : ℕ} {x : ℕ}
    (hx : x ∈ (List.range n).flatMap g) : ∃ i, i < n ∧ x ∈ g i := by
  rw [List.mem_flatMap] at hx
  obtain ⟨a, ha, hxa⟩ := hx
  exact ⟨a, List.mem_range.mp ha, hxa⟩

/-! ## Invariant preservation for every filter -/

/-- All tonal filters share the shape
`{width, height, mapChunks f pixels}`; this packages the two invariant
obligations. -/
theorem mapChunksFilter_valid (img : PixelBuffer) (f : ℕ → ℕ → ℕ → ℕ → List ℕ)
    (hf4 : ∀ r g b a, (f r g b a).length = 4)
    (hfb : ∀ r g b a, r ≤ 255 → g ≤ 255 → b ≤ 255 → a ≤ 255 → ∀ x ∈ f r g b a, x ≤ 255)
    (h : img.Valid) :
    PixelBuffer.Valid ⟨img.width, img.height, mapChunks f img.pixels⟩ := by
  obtain ⟨hlen, hbound⟩ := h
  constructor
  · show (mapChunks f img.pixels).length = _
    rw [mapChunks_length f hf4 img.pixels (by omega)]
    exact hlen
  · exact mapChunks_bounded f hfb img.pixels hbound

theorem grayscale_valid (img : PixelBuffer) (h : img.Valid) : (grayscale img).Valid := by
  refine mapChunksFilter_valid img _ (fun r g b a => rfl) ?_ h
  intro r g b a _ _ _ ha x hx
  simp only [List.mem_cons, List.not_mem_nil, or_false] at hx
  rcases hx with rfl | rfl | rfl | rfl
  · exact asU8_le _
  · exact asU8_le _
  · exact asU8_le _
  · exact ha

theorem brightness_valid (img : PixelBuffer) (v : ℚ) (h : img.Valid) :
    (brightness img v).Valid := by
  refine mapChunksFilter_valid img _ (fun r g b a => rfl) ?_ h
  intro r g b a _ _ _ ha x hx
  simp only [List.mem_cons, List.not_mem_nil, or_false] at hx
  have hcl : ∀ z : ℤ, (min 255 (max 0 z)).toNat ≤ 255 := by intro z; omega
  rcases hx with rfl | rfl | rfl | rfl
  · exact hcl _
  · exact hcl _
  · exact hcl _
  · exact ha

theorem contrast_valid (img : PixelBuffer) (v : ℚ) (h : img.Valid) :
    (contrast img v).Valid := by
  refine mapChunksFilter_valid img _ (fun r g b a => rfl) ?_ h
  intro r g b a _ _ _ ha x hx
  simp only [List.mem_cons, List.not_mem_nil, or_false] at hx
  rcases hx with rfl | rfl | rfl | rfl
  · exact asU8_le _
  · exact asU8_le _
  · exact asU8_le _
  · exact ha

theorem invert_valid (img : PixelBuffer) (h : img.Valid) : (invert img).Valid := by
  refine mapChunksFilter_valid img _ (fun r g b a => rfl) ?_ h
  intro r g b a _ _ _ ha x hx
  simp only [List.mem_cons, List.not_mem_nil, or_false] at hx
  rcases hx with rfl | rfl | rfl | rfl
  · omega
  · omega
  · omega
  · exact ha

theorem sepia_valid (img : PixelBuffer) (h : img.Valid) : (sepia img).Valid := by
  refine mapChunksFilter_valid img _ (fun r g b a => rfl) ?_ h
  intro r g b a _ _ _ ha x hx
  simp only [List.mem_cons, List.not_mem_nil, or_false] at hx
  rcases hx with rfl | rfl | rfl | rfl
  · exact asU8_le _
  · exact asU8_le _
  · exact asU8_le _
  · exact ha

/-- Both convolution passes produce a well-formed buffer of the input's
dimensions unconditionally: every byte goes through `clamp`+`as u8`. -/
theorem convBytes_length (acc : ℚ × ℚ × ℚ × ℚ) : (convBytes acc).length = 4 := rfl

theorem mem_convBytes_le (acc : ℚ × ℚ × ℚ × ℚ) (x : ℕ) (hx : x ∈ convBytes acc) :
    x ≤ 255 := by
  simp only [convBytes, List.mem_cons, List.not_mem_nil, or_false] at hx
  rcases hx with rfl | rfl | rfl | rfl <;> exact asU8_le _

theorem conv_horizontal_valid (img : PixelBuffer) (kernel : List ℚ) :
    (apply_convolution_1d_horizontal img kernel).Valid := by
  constructor
  · show ((List.range img.height).flatMap _).length = img.width * img.height * 4
    rw [length_flatMap_const _ (img.width * 4) _
      (fun y _ => by
        rw [length_flatMap_const _ 4 _ (fun x _ => convBytes_length _)]
        simp [List.length_range])]
    simp [List.length_range]
    ring
  · intro x hx
    obtain ⟨y, _, hy⟩ := mem_flatMap_range hx
    obtain ⟨x', _, hx'⟩ := mem_flatMap_range hy
    exact mem_convBytes_le _ _ hx'

theorem conv_vertical_valid (img : PixelBuffer) (kernel : List ℚ) :
    (apply_convolution_1d_vertical img kernel).Valid := by
  constructor
  · show ((List.range img.height).flatMap _).length = img.width * img.height * 4
    rw [length_flatMap_const _ (img.width * 4) _
      (fun y _ => by
        rw [length_flatMap_const _ 4 _ (fun x _ => convBytes_length _)]
        simp [List.length_range])]
    simp [List.length_range]
    ring
  · intro x hx
    obtain ⟨y, _, hy⟩ := mem_flatMap_range hx
    obtain ⟨x', _, hx'⟩ := mem_flatMap_range hy
    exact mem_convBytes_le _ _ hx'

theorem blurBody_width (E : ℚ → ℚ) (img : PixelBuffer) (s : ℚ) (r : ℕ) :
    (blurBody E img s r).width = img.width := rfl

theorem blurBody_height (E : ℚ → ℚ) (img : PixelBuffer) (s : ℚ) (r : ℕ) :
    (blurBody E img s r).height = img.height := rfl

theorem blurBody_valid (E : ℚ → ℚ) (img : PixelBuffer) (s : ℚ) (r : ℕ) :
    (blurBody E img s r).Valid :=
  conv_vertical_valid _ _

theorem blur_valid (E : ℚ → ℚ) (img : PixelBuffer) (s : ℚ) (b : PixelBuffer)
    (hb : blur E img s = some b) : b.Valid := by
  unfold blur at hb
  split at hb
  · exact absurd hb (by simp)
  · split at hb
    · exact absurd hb (by simp)
    · cases hb
      exact blurBody_valid _ _ _ _

theorem mapChunks2_length (f : ℕ → ℕ → ℕ → ℕ → ℕ → ℕ → ℕ → ℕ → List ℕ)
    (hf : ∀ o1 o2 o3 o4 b1 b2 b3 b4, (f o1 o2 o3 o4 b1 b2 b3 b4).length = 4) :
    ∀ l1 l2 : List ℕ, l1.length % 4 = 0 → l1.length = l2.length →
      (mapChunks2 f l1 l2).length = l1.length
  | [], l2, _, _ => rfl
  | [_], l2, h, _ => by simp at h
  | [_, _], l2, h, _ => by simp at h
  | [_, _, _], l2, h, _ => by simp at h
  | o1 :: o2 :: o3 :: o4 :: orest, l2, h, he => by
    match l2, he with
    | b1 :: b2 :: b3 :: b4 :: brest, he2 =>
      have h4 : orest.length % 4 = 0 := by
        simp only [List.length_cons] at h
        omega
      have he4 : orest.length = brest.length := by
        simp only [List.length_cons] at he2
        omega
      have ih := mapChunks2_length f hf orest brest h4 he4
      simp only [mapChunks2, List.length_append, List.length_cons, hf, ih]
      omega

theorem mapChunks2_bounded (f : ℕ → ℕ → ℕ → ℕ → ℕ → ℕ → ℕ → ℕ → List ℕ)
    (hf : ∀ o1 o2 o3 o4 b1 b2 b3 b4, o4 ≤ 255 →
      ∀ x ∈ f o1 o2 o3 o4 b1 b2 b3 b4, x ≤ 255) :
    ∀ l1 l2 : List ℕ, (∀ c ∈ l1, c ≤ 255) → ∀ x ∈ mapChunks2 f l1 l2, x ≤ 255
  | [], l2, _ => by simp [mapChunks2]
  | [_], l2, h => by simp [mapChunks2]
  | [_, _], l2, h => by simp [mapChunks2]
  | [_, _, _], l2, h => by simp [mapChunks2]
  | o1 :: o2 :: o3 :: o4 :: orest, l2, h => by
    intro x hx
    match l2, hx with
    | [], hx2 => simp [mapChunks2] at hx2
    | [_], hx2 => simp [mapChunks2] at hx2
    | [_, _], hx2 => simp [mapChunks2] at hx2
    | [_, _, _], hx2 => simp [mapChunks2] at hx2
    | b1 :: b2 :: b3 :: b4 :: brest, hx2 =>
      have hb := h
      simp only [List.mem_cons] at hb
      rw [mapChunks2, List.mem_append] at hx2
      rcases hx2 with hx2 | hx2
      · exact hf o1 o2 o3 o4 b1 b2 b3 b4 (hb o4 (by tauto)) x hx2
      · exact mapChunks2_bounded f hf orest brest (fun c hc => hb c (by tauto)) x hx2

theorem sharpen_valid (E : ℚ → ℚ) (img : PixelBuffer) (b : PixelBuffer)
    (h : img.Valid) (hb : sharpen E img = some b) : b.Valid := by
  unfold sharpen at hb
  cases hblur : blur E img 1 with
  | none => rw [hblur] at hb; exact absurd hb (by simp)
  | some blurred =>
    rw [hblur] at hb
    simp only [Option.map_some'] at hb
    cases hb
    have hbv := blur_valid E img 1 blurred hblur
    have hbw : blurred.width = img.width := by
      unfold blur at hblur
      split at hblur
      · exact absurd hblur (by simp)
      · split at hblur
        · exact absurd hblur (by simp)
        · cases hblur; rfl
    have hbh : blurred.height = img.height := by
      unfold blur at hblur
      split at hblur
      · exact absurd hblur (by simp)
      · split at hblur
        · exact absurd hblur (by simp)
        · cases hblur; rfl
    obtain ⟨hl1, hb1⟩ := h
    obtain ⟨hl2, _⟩ := hbv
    constructor
    · show (mapChunks2 _ img.pixels blurred.pixels).length = _
      rw [mapChunks2_length _ (by intro o1 o2 o3 o4 b1 b2 b3 b4; rfl) img.pixels blurred.pixels
        (by omega) (by rw [hl1, hl2, hbw, hbh])]
      exact hl1
    · refine mapChunks2_bounded _ ?_ img.pixels blurred.pixels hb1
      intro o1 o2 o3 o4 b1 b2 b3 b4 ho4 x hx
      simp only [List.mem_cons, List.not_mem_nil, or_false] at hx
      rcases hx with rfl | rfl | rfl | rfl
      · exact asU8_le _
      · exact asU8_le _
      · exact asU8_le _
      · exact ho4

theorem edge_detect_valid (img : PixelBuffer) (b : PixelBuffer)
    (hb : edge_detect img = some b) : b.Valid := by
  unfold edge_detect at hb
  split at hb
  · exact absurd hb (by simp)
  · split at hb
    · exact absurd hb (by simp)
    · cases hb
      constructor
      · show ((List.range img.height).flatMap _).length = img.width * img.height * 4
        rw [length_flatMap_const _ (img.width * 4) _
          (fun y _ => by
            rw [length_flatMap_const _ 4 _ (fun x _ => by split <;> rfl)]
            simp [List.length_range])]
        simp [List.length_range]
        ring
      · intro c hc
        obtain ⟨y, _, hy⟩ := mem_flatMap_range hc
        obtain ⟨x, _, hx⟩ := mem_flatMap_range hy
        split at hx <;>
          simp only [List.mem_cons, List.not_mem_nil, or_false] at hx
        · rcases hx with rfl | rfl | rfl | rfl
          · exact min_le_left _ _
          · exact min_le_left _ _
          · exact min_le_left _ _
          · omega
        · rcases hx with rfl | rfl | rfl | rfl <;> omega

theorem resize_valid (R : Resampler) (img : PixelBuffer) (w h : ℕ) :
    (resize R img w h).Valid :=
  ⟨R.sample_length img w h, R.sample_bounded img w h⟩

theorem applyOp_valid (E : ℚ → ℚ) (R : Resampler) (img : PixelBuffer)
    (op : FilterOperation) (b : PixelBuffer) (h : img.Valid)
    (hb : applyOp E R img op = some b) : b.Valid := by
  cases op with
  | Grayscale => cases hb; exact grayscale_valid img h
  | Brightness v => cases hb; exact brightness_valid img v h
  | Contrast v => cases hb; exact contrast_valid img v h
  | Blur s => exact blur_valid E img s b hb
  | Sharpen => exact sharpen_valid E img b h hb
  | EdgeDetect => exact edge_detect_valid img b hb
  | Resize w hh => cases hb; exact resize_valid R img w hh
  | Invert => cases hb; exact invert_valid img h
  | Sepia => cases hb; exact sepia_valid img h

theorem runOps_valid (E : ℚ → ℚ) (R : Resampler) :
    ∀ (ops : List FilterOperation) (img : PixelBuffer) (b : PixelBuffer),
      img.Valid → runOps E R img ops = some b → b.Valid := by
  intro ops
  induction ops with
  | nil => intro img b h hb; cases hb; exact h
  | cons op rest ih =>
    intro img b h hb
    rw [runOps] at hb
    cases happ : applyOp E R img op with
    | none => rw [happ] at hb; exact absurd hb (by simp)
    | some mid =>
      rw [happ] at hb
      simp only [Option.some_bind] at hb
      exact ih mid b (applyOp_valid E R img op mid h happ) hb

/-! ## Remaining helper lemmas -/

theorem sum_map_div (l : List ℚ) (s : ℚ) : (l.map (fun k => k / s)).sum = l.sum / s := by
  induction l with
  | nil => simp
  | cons a t ih => simp [ih, div_add_div_same]

theorem getD_range {n i : ℕ} (h : i < n) : (List.range n).getD i 0 = i := by
  rw [List.getD_eq_getElem _ _ (by simpa using h)]
  simp

/-- Indexing the row-major double `flatMap` used by the convolutions and by
`edge_detect`. -/
theorem flatMap2_getD (q : ℕ → ℕ → List ℕ) (w h : ℕ)
    (hq : ∀ y x, (q y x).length = 4) (x y c : ℕ) (hx : x < w) (hy : y < h) (hc : c < 4) :
    ((List.range h).flatMap (fun y => (List.range w).flatMap (fun x => q y x))).getD
      (4 * (y * w + x) + c) 0 = (q y x).getD c 0 := by
  rw [show 4 * (y * w + x) + c = y * (w * 4) + (x * 4 + c) from by ring]
  rw [flatMap_getD _ (w * 4) _ y (x * 4 + c)
    (fun a _ => by
      rw [length_flatMap_const _ 4 _ (fun b _ => hq a b)]
      simp [List.length_range])
    (by simpa using hy) (by omega)]
  rw [getD_range hy]
  rw [flatMap_getD _ 4 _ x c (fun b _ => hq y b) (by simpa using hx) hc]
  rw [getD_range hx]

/-- Reads `pixelAt` through a `mapChunks`-shaped filter. -/
theorem pixelAt_mapChunks (f : ℕ → ℕ → ℕ → ℕ → List ℕ)
    (hf4 : ∀ r g b a, (f r g b a).length = 4) (w h : ℕ) (l : List ℕ) (i : ℕ)
    (hi : 4 * (i + 1) ≤ l.length) :
    pixelAt ⟨w, h, mapChunks f l⟩ i =
      ((f (l.getD (4 * i) 0) (l.getD (4 * i + 1) 0) (l.getD (4 * i + 2) 0)
          (l.getD (4 * i + 3) 0)).getD 0 0,
       (f (l.getD (4 * i) 0) (l.getD (4 * i + 1) 0) (l.getD (4 * i + 2) 0)
          (l.getD (4 * i + 3) 0)).getD 1 0,
       (f (l.getD (4 * i) 0) (l.getD (4 * i + 1) 0) (l.getD (4 * i + 2) 0)
          (l.getD (4 * i + 3) 0)).getD 2 0,
       (f (l.getD (4 * i) 0) (l.getD (4 * i + 1) 0) (l.getD (4 * i + 2) 0)
          (l.getD (4 * i + 3) 0)).getD 3 0) := by
  have h0 := mapChunks_getD f hf4 i l 0 (by omega) hi
  have h1 := mapChunks_getD f hf4 i l 1 (by omega) hi
  have h2 := mapChunks_getD f hf4 i l 2 (by omega) hi
  have h3 := mapChunks_getD f hf4 i l 3 (by omega) hi
  simp only [Nat.add_zero] at h0
  unfold pixelAt PixelBuffer.byteAt
  rw [show (⟨w, h, mapChunks f l⟩ : PixelBuffer).pixels = mapChunks f l from rfl]
  rw [h0, h1, h2, h3]

theorem invert_bytes_involution :
    ∀ l : List ℕ, (∀ c ∈ l, c ≤ 255) → l.length % 4 = 0 →
      mapChunks (fun r g b a => [255 - r, 255 - g, 255 - b, a])
        (mapChunks (fun r g b a => [255 - r, 255 - g, 255 - b, a]) l) = l
  | [], _, _ => rfl
  | [_], _, h => by simp at h
  | [_, _], _, h => by simp at h
  | [_, _, _], _, h => by simp at h
  | r :: g :: b :: a :: rest, hb, h => by
    have hb' : ∀ c ∈ rest, c ≤ 255 := by
      intro c hc
      exact hb c (by simp [hc])
    have h' : rest.length % 4 = 0 := by
      simp only [List.length_cons] at h
      omega
    have ih := invert_bytes_involution rest hb' h'
    have hr : r ≤ 255 := hb r (by simp)
    have hg : g ≤ 255 := hb g (by simp)
    have hbb : b ≤ 255 := hb b (by simp)
    show mapChunks _ ((255 - r) :: (255 - g) :: (255 - b) :: a ::
      mapChunks _ rest) = _
    rw [mapChunks, ih]
    have e1 : 255 - (255 - r) = r := by omega
    have e2 : 255 - (255 - g) = g := by omega
    have e3 : 255 - (255 - b) = b := by omega
    rw [e1, e2, e3]
    rfl

/-! ## Error analysis of the float model

These lemmas bound the relative error of `roundF32` on values in the normal
`f32` range and propagate it through the kernel synthesizer's `f32` sum
accumulation and normalization, establishing the sum tolerance of claim C5. -/

theorem qexpAux_fix (fuel : ℕ) (a : ℚ) (e : ℤ) (h1 : ¬ a < 1) (h2 : ¬ 2 ≤ a) :
    qexpAux fuel a e = e := by
  cases fuel with
  | zero => rfl
  | succ n => simp only [qexpAux, if_neg h1, if_neg h2]

/-- Doubling phase of the exponent walk: if the fuel suffices to bring a value
below `1` back into range, the result brackets the input. -/
theorem qexpAux_up : ∀ (fuel : ℕ) (a : ℚ) (e : ℤ), 0 < a → a < 1 →
    1 ≤ a * 2 ^ fuel →
    (2:ℚ) ^ qexpAux fuel a e ≤ a * (2:ℚ) ^ e ∧
      a * (2:ℚ) ^ e < 2 ^ (qexpAux fuel a e + 1) := by
  intro fuel
  induction fuel with
  | zero =>
    intro a e ha h1 hf
    simp only [pow_zero, mul_one] at hf
    exact absurd h1 (not_lt.mpr hf)
  | succ n ih =>
    intro a e ha h1 hf
    simp only [qexpAux, if_pos h1]
    by_cases h2 : 2 * a < 1
    · have hx : a * 2 ^ (n + 1) = 2 * a * 2 ^ n := by ring
      have hf' : 1 ≤ 2 * a * 2 ^ n := by rw [← hx]; exact hf
      have key : 2 * a * (2:ℚ) ^ (e - 1) = a * 2 ^ e := by
        rw [zpow_sub_one₀ (by norm_num : (2:ℚ) ≠ 0)]
        ring
      have hrec := ih (2 * a) (e - 1) (by linarith) h2 hf'
      rwa [key] at hrec
    · push_neg at h2
      have h2b : ¬ 2 ≤ 2 * a := by nlinarith
      rw [qexpAux_fix n (2 * a) (e - 1) (not_lt.mpr h2) h2b]
      have hpow : (0:ℚ) < (2:ℚ) ^ e := by positivity
      constructor
      · have he : (2:ℚ) ^ (e - 1) * 2 = 2 ^ e := by
          rw [zpow_sub_one₀ (by norm_num : (2:ℚ) ≠ 0)]
          field_simp
        nlinarith [hpow]
      · have he : e - 1 + 1 = e := by ring
        rw [he]
        nlinarith [hpow]

/-- Halving phase of the exponent walk. -/
theorem qexpAux_down : ∀ (fuel : ℕ) (a : ℚ) (e : ℤ), 1 ≤ a →
    a < 2 ^ (fuel + 1) →
    (2:ℚ) ^ qexpAux fuel a e ≤ a * (2:ℚ) ^ e ∧
      a * (2:ℚ) ^ e < 2 ^ (qexpAux fuel a e + 1) := by
  intro fuel
  induction fuel with
  | zero =>
    intro a e h1 hf
    norm_num at hf
    simp only [qexpAux]
    have hpow : (0:ℚ) < (2:ℚ) ^ e := by positivity
    have he : (2:ℚ) ^ (e + 1) = 2 ^ e * 2 := zpow_add_one₀ (by norm_num) e
    exact ⟨by nlinarith, by rw [he]; nlinarith⟩
  | succ n ih =>
    intro a e h1 hf
    simp only [qexpAux, if_neg (not_lt.mpr h1)]
    by_cases h2 : 2 ≤ a
    · rw [if_pos h2]
      have hx : (2:ℚ) ^ (n + 1 + 1) = 2 ^ (n + 1) * 2 := by ring
      have hf' : a / 2 < 2 ^ (n + 1) := by
        rw [hx] at hf
        linarith
      have key : a / 2 * (2:ℚ) ^ (e + 1) = a * 2 ^ e := by
        rw [zpow_add_one₀ (by norm_num : (2:ℚ) ≠ 0)]
        ring
      have hrec := ih (a / 2) (e + 1) (by linarith) hf'
      rwa [key] at hrec
    · rw [if_neg h2]
      push_neg at h2
      have hpow : (0:ℚ) < (2:ℚ) ^ e := by positivity
      have he : (2:ℚ) ^ (e + 1) = 2 ^ e * 2 := zpow_add_one₀ (by norm_num) e
      exact ⟨by nlinarith, by rw [he]; nlinarith⟩

/-- `qexp` computes the binary exponent: `2 ^ qexp a ≤ a < 2 ^ (qexp a + 1)`
for every positive rational. -/
theorem qexp_spec (a : ℚ) (ha : 0 < a) :
    (2:ℚ) ^ qexp a ≤ a ∧ a < 2 ^ (qexp a + 1) := by
  have hnum : 1 ≤ a.num := Rat.num_pos.mpr ha
  have hnumq : (1:ℚ) ≤ (a.num : ℚ) := by exact_mod_cast hnum
  have hdenq : (1:ℚ) ≤ (a.den : ℚ) := by exact_mod_cast a.den_pos
  unfold qexp
  by_cases h1 : a < 1
  · have h2F : (a.den : ℚ) ≤ 2 ^ (a.num.natAbs + a.den + 1) := by
      have hd1 : (a.den : ℕ) < 2 ^ (a.den : ℕ) := Nat.lt_two_pow _
      have hd2 : (2:ℕ) ^ a.den ≤ 2 ^ (a.num.natAbs + a.den + 1) :=
        Nat.pow_le_pow_right (by norm_num) (by omega)
      exact_mod_cast le_of_lt (lt_of_lt_of_le hd1 hd2)
    have hA : a = (a.num : ℚ) / (a.den : ℚ) := (Rat.num_div_den a).symm
    have hge : 1 / (a.den : ℚ) ≤ a := by
      conv_rhs => rw [hA]
      gcongr
    have haf : 1 ≤ a * 2 ^ (a.num.natAbs + a.den + 1) := by
      have hdpos : (0:ℚ) < (a.den : ℚ) := by linarith
      calc (1:ℚ) = 1 / (a.den : ℚ) * (a.den : ℚ) := by field_simp
        _ ≤ 1 / (a.den : ℚ) * 2 ^ (a.num.natAbs + a.den + 1) := by
            apply mul_le_mul_of_nonneg_left h2F (by positivity)
        _ ≤ a * 2 ^ (a.num.natAbs + a.den + 1) := by
            apply mul_le_mul_of_nonneg_right hge (by positivity)
    simpa using qexpAux_up (a.num.natAbs + a.den + 1) a 0 ha h1 haf
  · push_neg at h1
    have hcast : (a.num : ℚ) = (a.num.natAbs : ℚ) := by
      rw [Int.cast_natAbs, abs_of_nonneg (by omega : (0:ℤ) ≤ a.num)]
    have hA : a = (a.num : ℚ) / (a.den : ℚ) := (Rat.num_div_den a).symm
    have hle : a ≤ (a.num.natAbs : ℚ) := by
      conv_lhs => rw [hA, hcast]
      exact div_le_self (by positivity) hdenq
    have hlt : a < 2 ^ (a.num.natAbs + a.den + 1 + 1) := by
      have hd1 : (a.num.natAbs : ℕ) < 2 ^ (a.num.natAbs : ℕ) := Nat.lt_two_pow _
      have hd2 : (2:ℕ) ^ a.num.natAbs ≤ 2 ^ (a.num.natAbs + a.den + 1 + 1) :=
        Nat.pow_le_pow_right (by norm_num) (by omega)
      have : (a.num.natAbs : ℚ) < 2 ^ (a.num.natAbs + a.den + 1 + 1) := by
        exact_mod_cast lt_of_lt_of_le hd1 hd2
      linarith
    simpa using qexpAux_down (a.num.natAbs + a.den + 1) a 0 h1 hlt

/-- Round-half-to-even differs from its argument by at most one half. -/
theorem rhe_sub_le (x : ℚ) : |((rhe x : ℤ) : ℚ) - x| ≤ 1 / 2 := by
  have hfl : ((⌊x⌋ : ℤ) : ℚ) ≤ x := Int.floor_le x
  have hfu : x < ⌊x⌋ + 1 := Int.lt_floor_add_one x
  unfold rhe
  by_cases hc1 : x - ⌊x⌋ < 1/2
  · rw [if_pos hc1, abs_le]
    constructor <;> linarith
  · rw [if_neg hc1]
    push_neg at hc1
    by_cases hc2 : 1/2 < x - ⌊x⌋
    · rw [if_pos hc2]
      push_cast
      rw [abs_le]
      constructor <;> linarith
    · rw [if_neg hc2]
      push_neg at hc2
      by_cases hc3 : ⌊x⌋ % 2 = 0
      · rw [if_pos hc3, abs_le]
        constructor <;> linarith
      · rw [if_neg hc3]
        push_cast
        rw [abs_le]
        constructor <;> linarith

/-- Relative-error bound for the `f32` rounding: on arguments at or above the
least normal `2^(-126)`, rounding perturbs by a factor within
`[1 - epsF32, 1 + epsF32]`. -/
theorem roundF32_bounds (q : ℚ) (hq : (2:ℚ) ^ (-126 : ℤ) ≤ q) :
    (1 - epsF32) * q ≤ roundF32 q ∧ roundF32 q ≤ (1 + epsF32) * q := by
  have hq0 : 0 < q := lt_of_lt_of_le (by positivity) hq
  have habs : |q| = q := abs_of_pos hq0
  have hspec := qexp_spec q hq0
  have hge : -126 ≤ qexp q := by
    by_contra hcon
    push_neg at hcon
    have h2 : (2:ℚ) ^ (qexp q + 1) ≤ 2 ^ (-126 : ℤ) :=
      zpow_le_zpow_right₀ (by norm_num) (by omega)
    linarith [hspec.2]
  have hmax : max (qexp q) (-126 : ℤ) = qexp q := max_eq_left hge
  unfold roundF32
  rw [if_neg hq0.ne', if_neg (not_lt.mpr hq0.le), habs, hmax, one_mul]
  have hrb := abs_le.mp (rhe_sub_le (q * (2:ℚ) ^ ((23:ℤ) - qexp q)))
  have hp : (0:ℚ) < (2:ℚ) ^ (qexp q - 23) := by positivity
  have hrecomb : q * (2:ℚ) ^ ((23:ℤ) - qexp q) * (2:ℚ) ^ (qexp q - 23) = q := by
    rw [mul_assoc, ← zpow_add₀ (by norm_num : (2:ℚ) ≠ 0)]
    rw [show (23:ℤ) - qexp q + (qexp q - 23) = 0 from by ring, zpow_zero, mul_one]
  have herr : (2:ℚ) ^ (qexp q - 23) * (1/2) ≤ q * epsF32 := by
    have h1 : (2:ℚ) ^ (qexp q - 23) * (1/2) = 2 ^ qexp q * (2:ℚ) ^ (-24 : ℤ) := by
      rw [show (1/2 : ℚ) = (2:ℚ) ^ (-1 : ℤ) from by norm_num,
        ← zpow_add₀ (by norm_num : (2:ℚ) ≠ 0), ← zpow_add₀ (by norm_num : (2:ℚ) ≠ 0)]
      congr 1
      ring
    have h3 : epsF32 = (2:ℚ) ^ (-24 : ℤ) := by
      rw [show ((-24:ℤ)) = -(24:ℤ) from rfl, zpow_neg]
      norm_num [epsF32]
    have h4 : (2:ℚ) ^ qexp q ≤ q := hspec.1
    have h5 : (0:ℚ) < (2:ℚ) ^ (-24 : ℤ) := by positivity
    rw [h1, h3]
    nlinarith
  constructor
  · calc (1 - epsF32) * q = q - q * epsF32 := by ring
      _ ≤ q - (2:ℚ) ^ (qexp q - 23) * (1/2) := by linarith
      _ = (q * (2:ℚ) ^ ((23:ℤ) - qexp q) - 1/2) * (2:ℚ) ^ (qexp q - 23) := by
          rw [sub_mul, hrecomb]
          ring
      _ ≤ ((rhe (q * (2:ℚ) ^ ((23:ℤ) - qexp q)) : ℤ) : ℚ) * (2:ℚ) ^ (qexp q - 23) := by
          apply mul_le_mul_of_nonneg_right _ hp.le
          linarith [hrb.1]
  · calc ((rhe (q * (2:ℚ) ^ ((23:ℤ) - qexp q)) : ℤ) : ℚ) * (2:ℚ) ^ (qexp q - 23)
        ≤ (q * (2:ℚ) ^ ((23:ℤ) - qexp q) + 1/2) * (2:ℚ) ^ (qexp q - 23) := by
          apply mul_le_mul_of_nonneg_right _ hp.le
          linarith [hrb.2]
      _ = q + (2:ℚ) ^ (qexp q - 23) * (1/2) := by
          rw [add_mul, hrecomb]
          ring
      _ ≤ q + q * epsF32 := by linarith
      _ = (1 + epsF32) * q := by ring

/-- The `f32` left fold `sum += kernel[i]` stays within a relative factor
`(1 ∓ epsF32) ^ n` of the exact sum, as long as every summand is at least a
normal-range lower bound `lo`. -/
theorem foldl_fadd_bounds (lo : ℚ) (hlo : (2:ℚ) ^ (-126 : ℤ) ≤ lo) :
    ∀ (ws : List ℚ) (acc : ℚ), 0 ≤ acc → (∀ w ∈ ws, lo ≤ w) →
      (1 - epsF32) ^ ws.length * (acc + ws.sum) ≤ ws.foldl fadd acc ∧
        ws.foldl fadd acc ≤ (1 + epsF32) ^ ws.length * (acc + ws.sum) := by
  intro ws
  induction ws with
  | nil =>
    intro acc hacc _
    simp
  | cons w t ih =>
    intro acc hacc hmem
    have hw : lo ≤ w := hmem w (by simp)
    have hlopos : (0:ℚ) < lo := lt_of_lt_of_le (by positivity) hlo
    have htpos : 0 ≤ t.sum :=
      List.sum_nonneg (fun x hx => le_trans hlopos.le (hmem x (List.mem_cons_of_mem _ hx)))
    have hq : (2:ℚ) ^ (-126 : ℤ) ≤ acc + w := by linarith
    have hrb := roundF32_bounds (acc + w) hq
    have hfadd : fadd acc w = roundF32 (acc + w) := rfl
    have hu0 : (0:ℚ) < 1 - epsF32 := by norm_num [epsF32]
    have hu1 : (0:ℚ) < 1 + epsF32 := by norm_num [epsF32]
    have hacc' : 0 ≤ fadd acc w := by
      rw [hfadd]
      nlinarith [hrb.1]
    have ihs := ih (fadd acc w) hacc' (fun x hx => hmem x (List.mem_cons_of_mem _ hx))
    rw [List.foldl_cons, List.length_cons, List.sum_cons]
    have hplo : (0:ℚ) ≤ (1 - epsF32) ^ t.length := le_of_lt (pow_pos hu0 _)
    have hphi : (0:ℚ) ≤ (1 + epsF32) ^ t.length := le_of_lt (pow_pos hu1 _)
    constructor
    · calc (1 - epsF32) ^ (t.length + 1) * (acc + (w + t.sum))
          = (1 - epsF32) ^ t.length * ((1 - epsF32) * (acc + w) + (1 - epsF32) * t.sum) := by
            ring
      _ ≤ (1 - epsF32) ^ t.length * (fadd acc w + t.sum) := by
            apply mul_le_mul_of_nonneg_left _ hplo
            have h1 : (1 - epsF32) * (acc + w) ≤ fadd acc w := by
              rw [hfadd]
              exact hrb.1
            have h2 : (1 - epsF32) * t.sum ≤ t.sum := by nlinarith [htpos]
            linarith
      _ ≤ t.foldl fadd (fadd acc w) := ihs.1
    · calc t.foldl fadd (fadd acc w) ≤ (1 + epsF32) ^ t.length * (fadd acc w + t.sum) := ihs.2
      _ ≤ (1 + epsF32) ^ t.length * ((1 + epsF32) * (acc + w) + (1 + epsF32) * t.sum) := by
            apply mul_le_mul_of_nonneg_left _ hphi
            have h1 : fadd acc w ≤ (1 + epsF32) * (acc + w) := by
              rw [hfadd]
              exact hrb.2
            have h2 : t.sum ≤ (1 + epsF32) * t.sum := by nlinarith [htpos]
            linarith
      _ = (1 + epsF32) ^ (t.length + 1) * (acc + (w + t.sum)) := by ring

set_option maxRecDepth 10000 in
set_option maxHeartbeats 2000000 in
/-- The normalized Gaussian kernel sums to `1` within `1/100000`, for any
weight function bounded into a normal dynamic range of at most `2^40` above
a floor of at least `2^(-100)`, and any radius up to `40`.  (The true
`exp(-x²/(2σ²))` weights of radius `r = ceil(3σ)` satisfy far tighter
bounds: they lie in `[exp(-9.34), 1] ⊆ [2^(-14), 1]`.)  The bound combines
the per-addition and per-division relative errors `(1 ± epsF32)` of the
`f32` accumulation and normalization: with `n = 2·radius + 1 ≤ 81` weights,
the sum lands in `[(1 - epsF32)^(n+1), (1 + epsF32)/(1 - epsF32)^n]`, and
`82 · epsF32 / (1 - 81 · epsF32) < 1/100000`. -/
theorem gaussian_sum_bound (E : ℚ → ℚ) (radius : ℕ) (sigma : ℚ) (lo hi : ℚ)
    (hlo : (2:ℚ) ^ (-100 : ℤ) ≤ lo) (hhi : hi ≤ lo * 2 ^ 40)
    (hE : ∀ q, lo ≤ E q ∧ E q ≤ hi) (hrad : radius ≤ 40) :
    |(create_gaussian_kernel E radius sigma).sum - 1| ≤ 1 / 100000 := by
  set ws := gaussWeights E radius sigma with hws
  set S := gaussKernelSum E radius sigma with hS0
  have hker : create_gaussian_kernel E radius sigma = ws.map (fun k => fdiv k S) := rfl
  have hSfold : S = ws.foldl fadd 0 := by
    rw [hS0, hws]
    rfl
  have hlen : ws.length = radius * 2 + 1 := by
    rw [hws]
    unfold gaussWeights
    rw [List.length_map, List.length_range]
  have hmemlo : ∀ w ∈ ws, lo ≤ w := by
    intro w hw
    rw [hws] at hw
    unfold gaussWeights at hw
    simp only [List.mem_map] at hw
    obtain ⟨i, _, rfl⟩ := hw
    exact (hE _).1
  have hmemhi : ∀ w ∈ ws, w ≤ hi := by
    intro w hw
    rw [hws] at hw
    unfold gaussWeights at hw
    simp only [List.mem_map] at hw
    obtain ⟨i, _, rfl⟩ := hw
    exact (hE _).2
  have hlopos : (0:ℚ) < lo := lt_of_lt_of_le (by positivity) hlo
  have hhi0 : lo ≤ hi := le_trans (hE 0).1 (hE 0).2
  have hlo126 : (2:ℚ) ^ (-126 : ℤ) ≤ lo := by
    refine le_trans (zpow_le_zpow_right₀ (by norm_num) (by norm_num)) hlo
  have heps0 : (0:ℚ) ≤ epsF32 := by norm_num [epsF32]
  have hu0 : (0:ℚ) < 1 - epsF32 := by norm_num [epsF32]
  have hu1 : (0:ℚ) < 1 + epsF32 := by norm_num [epsF32]
  have hn1 : 1 ≤ ws.length := by omega
  have hn81 : ws.length ≤ 81 := by omega
  have hnq1 : (1:ℚ) ≤ (ws.length : ℚ) := by exact_mod_cast hn1
  have hnq81 : (ws.length : ℚ) ≤ 81 := by exact_mod_cast hn81
  have hsum_up : ws.sum ≤ (ws.length : ℚ) * hi := by
    have h := List.sum_le_card_nsmul ws hi hmemhi
    simpa [nsmul_eq_mul] using h
  have hsum_lo : (ws.length : ℚ) * lo ≤ ws.sum := by
    have h := List.card_nsmul_le_sum ws lo hmemlo
    simpa [nsmul_eq_mul] using h
  have hsum_pos : 0 < ws.sum := lt_of_lt_of_le (by nlinarith) hsum_lo
  have hS := foldl_fadd_bounds lo hlo126 ws 0 le_rfl hmemlo
  rw [zero_add, ← hSfold] at hS
  have hbern : (1:ℚ) - (ws.length : ℚ) * epsF32 ≤ (1 - epsF32) ^ ws.length := by
    have h := one_add_mul_le_pow (a := -epsF32) (by norm_num [epsF32]) ws.length
    rw [show (1 + -epsF32 : ℚ) = 1 - epsF32 from by ring] at h
    linarith
  have hprod : ((1 + epsF32) * (1 - epsF32)) ^ ws.length ≤ 1 :=
    pow_le_one₀ (by norm_num [epsF32]) (by norm_num [epsF32])
  have hmulpow : (1 + epsF32) ^ ws.length * (1 - epsF32) ^ ws.length ≤ 1 := by
    rw [← mul_pow]
    exact hprod
  have hd1 : (0:ℚ) < 1 - 81 * epsF32 := by norm_num [epsF32]
  have hd2 : 1 - 81 * epsF32 ≤ (1 - epsF32) ^ ws.length := by
    nlinarith [hbern, hnq81, heps0]
  have h12 : (1:ℚ) / 2 ≤ (1 - epsF32) ^ ws.length := by
    refine le_trans (by norm_num [epsF32]) hd2
  have hppos : (0:ℚ) < (1 + epsF32) ^ ws.length := pow_pos hu1 _
  have hpow_hi_2 : (1 + epsF32) ^ ws.length ≤ 2 := by
    nlinarith [mul_le_mul_of_nonneg_left h12 hppos.le, hmulpow]
  have hS_pos : 0 < S :=
    lt_of_lt_of_le (mul_pos (pow_pos hu0 _) hsum_pos) hS.1
  have hS_up3 : S ≤ 162 * 2 ^ 40 * lo := by
    have hhipos : (0:ℚ) ≤ hi := le_trans hlopos.le hhi0
    have ha : (ws.length : ℚ) * hi ≤ 81 * hi := mul_le_mul_of_nonneg_right hnq81 hhipos
    have hb : (81:ℚ) * hi ≤ 81 * (lo * 2 ^ 40) := by
      apply mul_le_mul_of_nonneg_left hhi (by norm_num)
    have hc := mul_le_mul_of_nonneg_right hpow_hi_2 hsum_pos.le
    linarith [hsum_up, hS.2]
  have hentry_ge : ∀ w ∈ ws, (2:ℚ) ^ (-126 : ℤ) ≤ w / S := by
    intro w hw
    have h1 : lo ≤ w := hmemlo w hw
    have hden : (0:ℚ) < 162 * 2 ^ 40 * lo := by positivity
    have h2 : lo / (162 * 2 ^ 40 * lo) ≤ w / S := by
      rw [div_le_div_iff hden hS_pos]
      nlinarith [hS_up3, hS_pos, hlopos]
    have h3 : lo / (162 * 2 ^ 40 * lo) = 1 / (162 * 2 ^ 40) := by
      field_simp
      ring
    have h4 : (2:ℚ) ^ (-126 : ℤ) ≤ 1 / (162 * 2 ^ 40) := by
      rw [show ((2:ℚ) ^ (-126 : ℤ)) = 1 / 2 ^ 126 from by norm_num [zpow_neg]]
      norm_num
    rw [h3] at h2
    exact le_trans h4 h2
  have hdiv_bounds : ∀ w ∈ ws,
      (1 - epsF32) * (w / S) ≤ fdiv w S ∧ fdiv w S ≤ (1 + epsF32) * (w / S) := by
    intro w hw
    have := roundF32_bounds (w / S) (hentry_ge w hw)
    exact this
  have hsum_upper : (ws.map (fun k => fdiv k S)).sum ≤ (1 + epsF32) * (ws.sum / S) := by
    calc (ws.map (fun k => fdiv k S)).sum
        ≤ (ws.map (fun k => (1 + epsF32) * (k / S))).sum :=
          List.sum_le_sum (fun w hw => (hdiv_bounds w hw).2)
      _ = (1 + epsF32) * (ws.map (fun k => k / S)).sum := by
          rw [List.sum_map_mul_left]
      _ = (1 + epsF32) * (ws.sum / S) := by rw [sum_map_div]
  have hsum_lower : (1 - epsF32) * (ws.sum / S) ≤ (ws.map (fun k => fdiv k S)).sum := by
    calc (1 - epsF32) * (ws.sum / S)
        = (ws.map (fun k => (1 - epsF32) * (k / S))).sum := by
          rw [List.sum_map_mul_left, sum_map_div]
      _ ≤ (ws.map (fun k => fdiv k S)).sum :=
          List.sum_le_sum (fun w hw => (hdiv_bounds w hw).1)
  have hratio_up : ws.sum / S ≤ 1 / (1 - epsF32) ^ ws.length := by
    have hb : (0:ℚ) < (1 - epsF32) ^ ws.length * ws.sum :=
      mul_pos (pow_pos hu0 _) hsum_pos
    have h := div_le_div_of_nonneg_left hsum_pos.le hb hS.1
    calc ws.sum / S ≤ ws.sum / ((1 - epsF32) ^ ws.length * ws.sum) := h
      _ = 1 / (1 - epsF32) ^ ws.length := by
          rw [mul_comm, ← div_div, div_self hsum_pos.ne']
  have hratio_lo : 1 / (1 + epsF32) ^ ws.length ≤ ws.sum / S := by
    have h := div_le_div_of_nonneg_left hsum_pos.le hS_pos hS.2
    calc (1:ℚ) / (1 + epsF32) ^ ws.length
        = ws.sum / ((1 + epsF32) ^ ws.length * ws.sum) := by
          rw [mul_comm, ← div_div, div_self hsum_pos.ne']
      _ ≤ ws.sum / S := h
  have hup : (ws.map (fun k => fdiv k S)).sum ≤ (1 + epsF32) / (1 - epsF32) ^ ws.length := by
    calc (ws.map (fun k => fdiv k S)).sum ≤ (1 + epsF32) * (ws.sum / S) := hsum_upper
      _ ≤ (1 + epsF32) * (1 / (1 - epsF32) ^ ws.length) :=
          mul_le_mul_of_nonneg_left hratio_up hu1.le
      _ = (1 + epsF32) / (1 - epsF32) ^ ws.length := by rw [mul_one_div]
  have hfinal_up : (1 + epsF32) / (1 - epsF32) ^ ws.length ≤ 1 + 1 / 100000 := by
    have h1 : (1 + epsF32) / (1 - epsF32) ^ ws.length ≤ (1 + epsF32) / (1 - 81 * epsF32) :=
      div_le_div_of_nonneg_left hu1.le hd1 hd2
    have h2 : (1 + epsF32) / (1 - 81 * epsF32) ≤ 1 + 1 / 100000 := by
      rw [div_le_iff hd1]
      norm_num [epsF32]
    linarith
  have hdown : (1 - epsF32) ^ (ws.length + 1) ≤ (ws.map (fun k => fdiv k S)).sum := by
    have hinv : (1 - epsF32) ^ ws.length ≤ 1 / (1 + epsF32) ^ ws.length := by
      rw [le_div_iff hppos, mul_comm]
      exact hmulpow
    have h1 : (1 - epsF32) * (1 - epsF32) ^ ws.length ≤ (1 - epsF32) * (ws.sum / S) := by
      apply mul_le_mul_of_nonneg_left _ hu0.le
      exact le_trans hinv hratio_lo
    calc (1 - epsF32) ^ (ws.length + 1) = (1 - epsF32) * (1 - epsF32) ^ ws.length := by ring
      _ ≤ (1 - epsF32) * (ws.sum / S) := h1
      _ ≤ (ws.map (fun k => fdiv k S)).sum := hsum_lower
  have hfinal_down : 1 - 1 / 100000 ≤ (1 - epsF32) ^ (ws.length + 1) := by
    have h := one_add_mul_le_pow (a := -epsF32) (by norm_num [epsF32]) (ws.length + 1)
    rw [show (1 + -epsF32 : ℚ) = 1 - epsF32 from by ring] at h
    have hcast : ((ws.length + 1 : ℕ) : ℚ) = (ws.length : ℚ) + 1 := by push_cast; ring
    rw [hcast] at h
    have h2 : 1 - ((ws.length : ℚ) + 1) * epsF32 ≥ 1 - 82 * epsF32 := by
      nlinarith [hnq81, heps0]
    have h3 : (1:ℚ) - 82 * epsF32 ≥ 1 - 1 / 100000 := by norm_num [epsF32]
    linarith
  rw [hker, abs_le]
  constructor
  · linarith [hdown, hfinal_down]
  · linarith [hup, hfinal_up]

/-! ## The claims -/

/-- Claim C1 (corrected).  The claim asserts `Resize(0, h)` fails with an
`InvalidDimensions` error; the crate has no such error variant and no
dimension check — `resize` with a zero target succeeds and returns an empty
buffer.  Concretely, resizing a valid 1×1 buffer to 0×5 yields
`Ok` with a 0×5 buffer, not an error. -/
theorem C1_resize_zero_counterexample :
    process constOne zeroResampler bufOnePixel [FilterOperation.Resize 0 5] =
      some (Except.ok ⟨0, 5, []⟩) := by
  rfl

/-- Claim C1 (amended).  `Resize(w, h)` always succeeds and returns a buffer
whose dimensions are exactly `(w, h)` — for *all* `w, h`, zero included; no
`InvalidDimensions` error exists in the crate. -/
theorem C1_resize_dimensions (E : ℚ → ℚ) (R : Resampler) (img : PixelBuffer) (w h : ℕ) :
    process E R img [FilterOperation.Resize w h] = some (Except.ok (resize R img w h)) ∧
    (resize R img w h).width = w ∧ (resize R img w h).height = h :=
  ⟨rfl, rfl, rfl⟩

set_option maxRecDepth 100000 in
/-- Claim C2 (corrected).  The claim asserts `Blur` rejects `sigma ≤ 0` with
`InvalidParameter` before the synthesizer runs; in fact `blur` performs no
validation at all.  At `sigma = -1/4` (non-positive) the pipeline succeeds
— this sigma keeps the kernel radius at 0, `exp(-0/0.125) = 1`, so the real
code returns the input unchanged, exactly as the model computes. -/
theorem C2_blur_no_rejection_counterexample :
    process constOne zeroResampler bufOnePixel [FilterOperation.Blur (-1/4)] =
      some (Except.ok bufOnePixel) := by
  decide

/-- Claim C2 (amended).  `blur` never validates `sigma`: for any non-positive
`sigma` in `(-1/3, 0]` (radius 0 — for `sigma ≤ -1/3` the wrapped kernel
size makes the call panic instead) on a nonzero-width buffer the pipeline
succeeds, invoking the kernel synthesizer with that non-positive `sigma`
(visible in `blurBody`); and no run of `process` ever returns an error
value, `InvalidParameter` included. -/
theorem C2_blur_no_rejection :
    (∀ (E : ℚ → ℚ) (R : Resampler) (img : PixelBuffer) (σ : ℚ),
      0 < img.width → -1/3 < σ → σ ≤ 0 →
      process E R img [FilterOperation.Blur σ] = some (Except.ok (blurBody E img σ 0))) ∧
    (∀ (E : ℚ → ℚ) (R : Resampler) (img : PixelBuffer) (ops : List FilterOperation)
      (r : Except PipelineError PixelBuffer), process E R img ops = some r →
      ∃ buf, r = Except.ok buf) := by
  constructor
  · intro E R img σ hw hσ1 hσ2
    have hc1 : blurRadius σ ≤ 0 := by
      rw [blurRadius, Int.ceil_le]
      push_cast
      nlinarith
    have hc2 : (-1 : ℤ) < blurRadius σ := by
      rw [blurRadius]
      rw [Int.lt_ceil]
      push_cast
      nlinarith
    have hr0 : blurRadius σ = 0 := by omega
    show ((blur E img σ).bind _).map _ = _
    rw [blur, if_neg (by omega), if_neg (by omega)]
    rw [hr0]
    rfl
  · intro E R img ops r hr
    unfold process at hr
    cases hrun : runOps E R img ops with
    | none => rw [hrun] at hr; exact absurd hr (by simp)
    | some buf =>
      rw [hrun] at hr
      simp only [Option.map_some'] at hr
      exact ⟨buf, (Option.some.injEq _ _ ▸ hr).symm⟩

/-- Claim C2 witness: the amended statement instantiated at `sigma = 0` on a
concrete 1×1 buffer. -/
theorem C2_blur_no_rejection_witness :
    process constOne zeroResampler bufOnePixel [FilterOperation.Blur 0] =
      some (Except.ok (blurBody constOne bufOnePixel 0 0)) :=
  C2_blur_no_rejection.1 constOne zeroResampler bufOnePixel 0 (by decide)
    (by decide) (by decide)

set_option maxRecDepth 100000 in
/-- Claim C3 (corrected).  The claim asserts the gray value is
`round(0.2126R + 0.7152G + 0.0722B)` (nearest); the code computes the luma
in `f32` and *truncates* it with `as u8`.  At the pixel `(13,13,13)` the
spec formula gives exactly `13` (so `round = 13`), but the `f32` sum is
`12.99999905…`, which truncates to `12`. -/
theorem C3_grayscale_rounding_counterexample :
    pixelAt (grayscale bufGray13) 0 ≠
      ((round (specLuma 13 13 13)).toNat, (round (specLuma 13 13 13)).toNat,
       (round (specLuma 13 13 13)).toNat, 200) ∧
    pixelAt (grayscale bufGray13) 0 = (12, 12, 12, 200) := by
  constructor
  · decide
  · decide

/-- Claim C3 (amended).  For every buffer and every pixel, `grayscale` sets
`R = G = B` to the BT.709 luma computed in `f32` arithmetic and *truncated
toward zero* (`as u8`), and copies the alpha byte unchanged. -/
theorem C3_grayscale_truncates (img : PixelBuffer) :
    (grayscale img).width = img.width ∧ (grayscale img).height = img.height ∧
    ∀ i, i < numPixels img →
      pixelAt (grayscale img) i =
        (asU8 (lumaF32 (img.byteAt (4 * i)) (img.byteAt (4 * i + 1)) (img.byteAt (4 * i + 2))),
         asU8 (lumaF32 (img.byteAt (4 * i)) (img.byteAt (4 * i + 1)) (img.byteAt (4 * i + 2))),
         asU8 (lumaF32 (img.byteAt (4 * i)) (img.byteAt (4 * i + 1)) (img.byteAt (4 * i + 2))),
         img.byteAt (4 * i + 3)) := by
  refine ⟨rfl, rfl, ?_⟩
  intro i hi
  have hlen : 4 * (i + 1) ≤ img.pixels.length := by
    unfold numPixels at hi
    omega
  exact pixelAt_mapChunks _ (by intro r g b a; rfl) img.width img.height img.pixels i hlen

set_option maxRecDepth 100000 in
/-- Claim C3 witness: the amended statement at the concrete pixel
`(13,13,13,200)` — the gray byte is `asU8 (lumaF32 13 13 13) = 12`. -/
theorem C3_grayscale_truncates_witness :
    pixelAt (grayscale bufGray13) 0 =
      (asU8 (lumaF32 13 13 13), asU8 (lumaF32 13 13 13), asU8 (lumaF32 13 13 13), 200) ∧
    asU8 (lumaF32 13 13 13) = 12 :=
  ⟨(C3_grayscale_truncates bufGray13).2.2 0 (by decide), by decide⟩

set_option maxRecDepth 100000 in
/-- Claim C4 (corrected).  The claim asserts the brightness offset is
`round(v * 255)` (nearest); the code computes `(value * 255.0) as i32`,
which *truncates*.  At `v = 0.87` the claimed offset is `round(221.85) =
222`, but the code adds `221`: brightening pure black yields `221`, not
`222`. -/
theorem C4_brightness_rounding_counterexample :
    pixelAt (brightness bufDark (roundF32 (87/100))) 0 ≠
      ((min 255 (max 0 ((0 : ℤ) + round ((87/100 : ℚ) * 255)))).toNat,
       (min 255 (max 0 ((0 : ℤ) + round ((87/100 : ℚ) * 255)))).toNat,
       (min 255 (max 0 ((0 : ℤ) + round ((87/100 : ℚ) * 255)))).toNat, 9) ∧
    pixelAt (brightness bufDark (roundF32 (87/100))) 0 = (221, 221, 221, 9) := by
  constructor
  · decide
  · decide

/-- Claim C4 (amended).  For every buffer, every pixel and every `v` whose
truncated offset stays below the `i32` overflow threshold (beyond it the
source's `channel as i32 + adjustment` is a debug-mode panic, not modelled),
`brightness` adds the *truncated* `f32` product `(v * 255.0) as i32` to each
of R, G, B, clamps into `[0, 255]`, and copies alpha unchanged. -/
theorem C4_brightness_truncates (img : PixelBuffer) (v : ℚ)
    (_hno : asI32 (fmul v 255) ≤ 2 ^ 31 - 256) :
    (brightness img v).width = img.width ∧ (brightness img v).height = img.height ∧
    ∀ i, i < numPixels img →
      pixelAt (brightness img v) i =
        ((min 255 (max 0 ((img.byteAt (4 * i) : ℤ) + asI32 (fmul v 255)))).toNat,
         (min 255 (max 0 ((img.byteAt (4 * i + 1) : ℤ) + asI32 (fmul v 255)))).toNat,
         (min 255 (max 0 ((img.byteAt (4 * i + 2) : ℤ) + asI32 (fmul v 255)))).toNat,
         img.byteAt (4 * i + 3)) := by
  refine ⟨rfl, rfl, ?_⟩
  intro i hi
  have hlen : 4 * (i + 1) ≤ img.pixels.length := by
    unfold numPixels at hi
    omega
  exact pixelAt_mapChunks _ (by intro r g b a; rfl) img.width img.height img.pixels i hlen

set_option maxRecDepth 100000 in
/-- Claim C4 witness: the amended statement at black `(0,0,0,9)` with
`v = 0.87`: the offset is `asI32 (fmul 0.87 255) = 221`. -/
theorem C4_brightness_truncates_witness :
    pixelAt (brightness bufDark (roundF32 (87/100))) 0 =
      ((min 255 (max 0 ((0 : ℤ) + asI32 (fmul (roundF32 (87/100)) 255)))).toNat,
       (min 255 (max 0 ((0 : ℤ) + asI32 (fmul (roundF32 (87/100)) 255)))).toNat,
       (min 255 (max 0 ((0 : ℤ) + asI32 (fmul (roundF32 (87/100)) 255)))).toNat, 9) ∧
    asI32 (fmul (roundF32 (87/100)) 255) = 221 :=
  ⟨(C4_brightness_truncates bufDark (roundF32 (87/100)) (by decide)).2.2 0 (by decide),
   by decide⟩

set_option maxRecDepth 100000 in
/-- Claim C5 counterexample: the claimed radius formula `r = ceil(3*sigma)` is
false of the program.  At `sigma = roundF32 (1/3)` — the `f32` value nearest
`1/3`, an input the program can receive — the exact product `3 · sigma`
equals `1 + 2^(-25)`, which rounds to exactly `1.0` in `f32`; the radius the
code computes, `((sigma * 3.0).ceil()) as i32 = ⌈fmul sigma 3⌉`
(`blurRadiusF32`), is therefore `1`, while the claimed `⌈3 · sigma⌉` is `2`. -/
theorem C5_gaussian_kernel_counterexample :
    0 < roundF32 (1/3) ∧ blurRadiusF32 (roundF32 (1/3)) = 1 ∧
      ⌈(3:ℚ) * roundF32 (1/3)⌉ = 2 := by decide

/-- Claim C5 (corrected).  For `sigma > 0`, the kernel the program synthesizes
has radius `r = ⌈fmul sigma 3⌉` — the ceiling of the rounded `f32` product,
not of the exact `3 · sigma` (see `C5_gaussian_kernel_counterexample`) — and
length `2·r + 1`; entry `i` is the weight `E (-x²/(2·sigma²))` at offset
`x = i - r` (computed in `f32` arithmetic) divided in `f32` by the `f32`
accumulation of all unnormalized weights; and the normalized sum is `1`
within `1e-5` — not exactly `1`, since both the accumulation and the
normalization round.  The tolerance holds whenever the weight function is
bounded into a dynamic range of at most `2^40` above a floor of at least
`2^(-100)` (true `exp` weights lie in `[2^(-14), 1]`) and the radius is at
most `40` (true of every `sigma ≤ 13`). -/
theorem C5_gaussian_kernel (E : ℚ → ℚ) (sigma lo hi : ℚ) (r : ℕ)
    (hr : r = (blurRadiusF32 sigma).toNat) (hs : 0 < sigma)
    (hlo : (2:ℚ) ^ (-100 : ℤ) ≤ lo) (hhi : hi ≤ lo * 2 ^ 40)
    (hE : ∀ q, lo ≤ E q ∧ E q ≤ hi) (hrad : r ≤ 40) :
    (create_gaussian_kernel E r sigma).length = 2 * r + 1 ∧
    (∀ i < 2 * r + 1,
      (create_gaussian_kernel E r sigma).getD i 0 =
        fdiv (E (fdiv (fmul (-(((i : ℤ) - (r : ℤ) : ℤ) : ℚ)) (((i : ℤ) - (r : ℤ) : ℤ) : ℚ))
                  (fmul (fmul 2 sigma) sigma)))
             (gaussKernelSum E r sigma)) ∧
    |(create_gaussian_kernel E r sigma).sum - 1| ≤ 1 / 100000 := by
  refine ⟨?_, ?_, gaussian_sum_bound E r sigma lo hi hlo hhi hE hrad⟩
  · unfold create_gaussian_kernel gaussWeights
    rw [List.length_map, List.length_map, List.length_range]
    omega
  · intro i hilt
    have hlw : (gaussWeights E r sigma).length = 2 * r + 1 := by
      unfold gaussWeights
      rw [List.length_map, List.length_range]
      omega
    have hil : i < ((gaussWeights E r sigma).map
        (fun k => fdiv k (gaussKernelSum E r sigma))).length := by
      rw [List.length_map, hlw]
      omega
    show ((gaussWeights E r sigma).map
      (fun k => fdiv k (gaussKernelSum E r sigma))).getD i 0 = _
    rw [List.getD_eq_getElem _ _ hil, List.getElem_map]
    congr 1
    unfold gaussWeights
    simp only [List.getElem_map, List.getElem_range]

set_option maxRecDepth 100000 in
/-- Claim C5 witness: at `sigma = 1` with the constant weight function the
radius is `3`, and the seven normalized entries `roundF32 (1/7)` sum to
`67108867/67108864 = 1 + 3·2^(-26)`, within the `1e-5` tolerance but not
exactly `1`. -/
theorem C5_gaussian_kernel_witness :
    ((blurRadiusF32 1).toNat = 3 ∧ (2:ℚ) ^ (-100 : ℤ) ≤ 1 ∧ (1:ℚ) ≤ 1 * 2 ^ 40) ∧
    (create_gaussian_kernel constOne (blurRadiusF32 1).toNat 1).sum = 67108867 / 67108864 ∧
    |(create_gaussian_kernel constOne (blurRadiusF32 1).toNat 1).sum - 1| ≤ 1 / 100000 :=
  ⟨⟨by decide, by decide, by decide⟩, by decide,
   (C5_gaussian_kernel constOne 1 1 1 (blurRadiusF32 1).toNat rfl (by decide) (by decide)
      (by decide) (fun q => ⟨le_refl 1, le_refl 1⟩) (by decide)).2.2⟩

/-- Claim C6 (confirmed).  For buffers with both dimensions ≥ 2, `edge_detect`
returns; the one-pixel border of the output is exactly `(0,0,0,0)` (the
zero-initialized `ImageBuffer::new` background), and every interior pixel
`(x, y) ∈ [1, w-2] × [1, h-2]` carries the Sobel magnitude
`min 255 ⌊√(gx² + gy²)⌋` of the grayscale image replicated into R, G, B
with alpha 255 (`sobelMagAt`; the floor is the `as u8` truncation of the
correctly rounded `f32` square root — see `sobelMagAt`). -/
theorem C6_edge_detect_border_and_interior (img out : PixelBuffer)
    (hw : 2 ≤ img.width) (hh : 2 ≤ img.height)
    (hout : edge_detect img = some out) :
    out.width = img.width ∧ out.height = img.height ∧
    ∀ x y, x < img.width → y < img.height →
      pixelAtXY out x y =
        if 1 ≤ x ∧ x + 1 < img.width ∧ 1 ≤ y ∧ y + 1 < img.height then
          (sobelMagAt (grayscale img) x y, sobelMagAt (grayscale img) x y,
           sobelMagAt (grayscale img) x y, 255)
        else (0, 0, 0, 0) := by
  unfold edge_detect at hout
  rw [if_neg (by omega)] at hout
  rw [if_neg (by omega : ¬(3 ≤ img.height ∧ img.width < 2))] at hout
  cases hout
  refine ⟨rfl, rfl, ?_⟩
  intro x y hx hy
  have q := fun (c : ℕ) (hc : c < 4) => flatMap2_getD
    (fun y x => if 1 ≤ x ∧ x + 1 < img.width ∧ 1 ≤ y ∧ y + 1 < img.height then
        [sobelMagAt (grayscale img) x y, sobelMagAt (grayscale img) x y,
         sobelMagAt (grayscale img) x y, 255]
      else [0, 0, 0, 0])
    img.width img.height (fun y x => by dsimp only; split <;> rfl) x y c hx hy hc
  have q0 := q 0 (by omega)
  have q1 := q 1 (by omega)
  have q2 := q 2 (by omega)
  have q3 := q 3 (by omega)
  simp only [Nat.add_zero] at q0
  show pixelAt _ (y * img.width + x) = _
  unfold pixelAt PixelBuffer.byteAt
  rw [q0, q1, q2, q3]
  split
  · rfl
  · rfl

/-- Claim C6 witness: a 2×2 buffer is all border; the output pixel `(0,0)` is
`(0,0,0,0)`. -/
theorem C6_edge_detect_witness :
    pixelAtXY (⟨2, 2, List.replicate 16 0⟩ : PixelBuffer) 0 0 = (0, 0, 0, 0) :=
  (C6_edge_detect_border_and_interior bufTwoByTwo ⟨2, 2, List.replicate 16 0⟩
    (by decide) (by decide) (by decide)).2.2 0 0 (by decide) (by decide)

/-- Claim C7 (confirmed).  `Invert` is an involution on every valid buffer:
`255 - (255 - c) = c` on R, G, B and alpha is copied twice. -/
theorem C7_invert_involution (img : PixelBuffer) (h : img.Valid) :
    invert (invert img) = img := by
  obtain ⟨hlen, hbound⟩ := h
  cases img with
  | mk w hgt pixels =>
    show (⟨w, hgt, mapChunks _ (mapChunks _ pixels)⟩ : PixelBuffer) = ⟨w, hgt, pixels⟩
    rw [invert_bytes_involution pixels hbound (by simp only at hlen; omega)]

/-- Claim C7 witness: the involution on a concrete valid 1×1 buffer. -/
theorem C7_invert_involution_witness : invert (invert bufOnePixel) = bufOnePixel :=
  C7_invert_involution bufOnePixel (by decide)

/-- Claim C8 (confirmed).  Executing the pipeline with an empty operation
list succeeds and returns the input buffer unchanged (the fold never runs;
the source clones the input and wraps it in `Ok`). -/
theorem C8_empty_pipeline (E : ℚ → ℚ) (R : Resampler) (img : PixelBuffer) :
    process E R img [] = some (Except.ok img) := rfl

/-- Claim C9 (corrected).  The claim says the pipeline *always* returns
either an error kind or an invariant-satisfying buffer.  It does not:
`EdgeDetect` on the valid 0×0 buffer underflows `height - 1` (`u32`) and
panics — nothing is returned at all (`none`). -/
theorem C9_invariant_counterexample :
    PixelBuffer.Valid bufEmpty ∧
    process constOne zeroResampler bufEmpty [FilterOperation.EdgeDetect] = none := by
  constructor
  · decide
  · rfl

/-- Claim C9 (amended).  Whenever the pipeline *does* return, the caller
receives `Ok` of an invariant-satisfying buffer — `process` can construct
no error value at all, and every filter preserves the
`len = width*height*4` invariant (and byte bounds); but for some valid
inputs and operation lists (`EdgeDetect` on degenerate dimensions, `Blur`
with `sigma ≤ -1/3` or on zero-width buffers) the pipeline panics instead
of returning. -/
theorem C9_invariant_on_return :
    (∀ (E : ℚ → ℚ) (R : Resampler) (img : PixelBuffer) (ops : List FilterOperation)
        (e : PipelineError), process E R img ops ≠ some (Except.error e)) ∧
    (∀ (E : ℚ → ℚ) (R : Resampler) (img : PixelBuffer) (ops : List FilterOperation)
        (buf : PixelBuffer), img.Valid → process E R img ops = some (Except.ok buf) →
      buf.Valid ∧ buf.pixels.length = buf.width * buf.height * 4) := by
  constructor
  · intro E R img ops e hr
    unfold process at hr
    cases hrun : runOps E R img ops with
    | none => rw [hrun] at hr; simp at hr
    | some b => rw [hrun] at hr; simp at hr
  · intro E R img ops buf h hr
    unfold process at hr
    cases hrun : runOps E R img ops with
    | none => rw [hrun] at hr; simp at hr
    | some b =>
      rw [hrun] at hr
      simp only [Option.map_some', Option.some.injEq, Except.ok.injEq] at hr
      subst hr
      have hv := runOps_valid E R ops img b h hrun
      exact ⟨hv, hv.1⟩

/-- Claim C9 witness: the amended statement at a concrete one-operation run. -/
theorem C9_invariant_on_return_witness :
    PixelBuffer.Valid (grayscale bufOnePixel) ∧
    (grayscale bufOnePixel).pixels.length =
      (grayscale bufOnePixel).width * (grayscale bufOnePixel).height * 4 :=
  C9_invariant_on_return.2 constOne zeroResampler bufOnePixel
    [FilterOperation.Grayscale] (grayscale bufOnePixel) (by decide) rfl

/-- Claim C10 (confirmed).  `edge_detect` returns a buffer exactly when
`height ≥ 1` and (`width ≥ 2` or `height ≤ 2`): `height - 1` (`u32`)
underflows for `height = 0`, and `(width - 2) * 4` underflows for
`width < 2` as soon as the row range `1..height-1` is non-empty
(`height ≥ 3`); under the precondition neither subtraction underflows. -/
theorem C10_edge_detect_totality (img : PixelBuffer) :
    (edge_detect img).isSome = true ↔
      1 ≤ img.height ∧ (2 ≤ img.width ∨ img.height ≤ 2) := by
  unfold edge_detect
  by_cases h1 : img.height = 0
  · rw [if_pos h1]
    simp only [Option.isSome_none, Bool.false_eq_true, false_iff]
    omega
  · rw [if_neg h1]
    by_cases h2 : 3 ≤ img.height ∧ img.width < 2
    · rw [if_pos h2]
      simp only [Option.isSome_none, Bool.false_eq_true, false_iff]
      omega
    · rw [if_neg h2]
      simp only [Option.isSome_some, true_iff]
      rw [not_and_or] at h2
      omega
